import Mathlib

/-!
Verification development for the `pxd` meta-preprocessor
(`src/metapreprocessor.py` together with the text utilities of
`src/utils.py`).

The Python source is shallowly embedded:

* Python strings are modelled as `List Char` (`Chars`); the embedding
  treats `'\n'` as the line terminator and models the ASCII fragment of
  Python's whitespace and identifier classes.
* The mutable emission context (`__META__`) becomes an explicit
  `MetaState` record threaded through the generation primitives
  (`line`, `enter`, `enums`, `define`, `lut`, `_start`, `_end`).
* Exceptions become `Except`/`Option` error results; a primitive that
  mutates state before raising returns the mutated state together with
  the error, mirroring the fact that the Python singleton keeps its
  mutations when an exception propagates.
* The driver `do` (scanning excluded: the pipeline is modelled from the
  scanned directive records onward) becomes `metaRun`, which also
  returns an explicit event log recording which directives were
  compiled and executed and which output files were written.
-/

namespace Pxd

/-- Python strings, modelled as lists of characters. -/
abbrev Chars := List Char

/-- Coerce a Lean string literal to the character-list model. -/
def cs (s : String) : Chars := s.data

/-- ASCII fragment of the whitespace class used by Python's
`str.strip()` / `str.rstrip()` with no argument. -/
def isPyWs (c : Char) : Bool :=
  c = ' ' || c = '\t' || c = '\n' || c = '\r' || c = '\x0b' || c = '\x0c'

/-- `s.lstrip(p)`: drop the longest prefix of characters satisfying `p`. -/
def pyLstrip (p : Char → Bool) (l : Chars) : Chars := l.dropWhile p

/-- `s.rstrip(p)`: drop the longest suffix of characters satisfying `p`. -/
def pyRstrip (p : Char → Bool) (l : Chars) : Chars :=
  (l.reverse.dropWhile p).reverse

/-- `s.strip()` with default whitespace. -/
def stripWs (l : Chars) : Chars := pyRstrip isPyWs (pyLstrip isPyWs l)

/-- `s.rstrip()` with default whitespace. -/
def rstripWs (l : Chars) : Chars := pyRstrip isPyWs l

/-- A line is blank when `line.strip()` is empty. -/
def isBlankLine (l : Chars) : Bool := (stripWs l).isEmpty

/-- `s.splitlines(keepends = True)` restricted to `'\n'` terminators. -/
def splitlinesKeep : Chars → List Chars
  | [] => []
  | c :: rest =>
    if c = '\n' then ['\n'] :: splitlinesKeep rest
    else
      match splitlinesKeep rest with
      | [] => [[c]]
      | l :: ls => (c :: l) :: ls

/-- Drop one trailing `'\n'` from a kept line. -/
def chompNl (l : Chars) : Chars :=
  if l.getLast? = some '\n' then l.dropLast else l

/-- `s.splitlines()` (ends dropped), restricted to `'\n'` terminators. -/
def splitlinesNo (l : Chars) : List Chars := (splitlinesKeep l).map chompNl

/-- Number of leading spaces of a line (`len(line) - len(line.lstrip(' '))`). -/
def lineIndent (l : Chars) : Nat := (l.takeWhile (fun c => c = ' ')).length

/-- `line.lstrip(' ').startswith('\t')`: tab indentation detector. -/
def tabIndent (l : Chars) : Bool :=
  match l.dropWhile (fun c => c = ' ') with
  | c :: _ => c = '\t'
  | [] => false

/-- Remainder after the first `' '` of the string, if any. -/
def afterFirstSpace : Chars → Option Chars
  | [] => none
  | c :: r => if c = ' ' then some r else afterFirstSpace r

/-- `line.split(' ', maxsplit = m)[-1]`: perform up to `m` splits at the
first space, keeping only what follows the last split. -/
def pySplitLast : Nat → Chars → Chars
  | 0, l => l
  | m + 1, l =>
    match afterFirstSpace l with
    | none => l
    | some r => pySplitLast m r

/-- The running minimum indentation over non-blank, non-comment lines,
exactly as the loop in `deindent` accumulates it. -/
def globalIndent (comment : Option Chars) (lines : List Chars) : Option Nat :=
  lines.foldl
    (fun g l =>
      let isComment :=
        match comment with
        | none => false
        | some p => p.isPrefixOf (stripWs l)
      if !isComment && !(isBlankLine l) then
        match g with
        | none => some (lineIndent l)
        | some g0 => some (min (lineIndent l) g0)
      else g)
    none

/-- `utils.deindent`: strip the shared indentation of a text block.
Raises (returns `.error`) when a line is tab-indented. -/
def deindent (multiline : Bool) (comment : Option Chars) (s : Chars) :
    Except String Chars :=
  let lines := splitlinesKeep s
  let lines :=
    if multiline then
      match lines with
      | l :: rest => if isBlankLine l then rest else lines
      | [] => lines
    else lines
  if lines.any tabIndent then
    .error "Only spaces for indentation is allowed."
  else
    let out :=
      match globalIndent comment lines with
      | none => lines
      | some g => lines.map (pySplitLast g)
    .ok out.flatten

/-- `utils.OrderedSet` construction: de-duplicate keeping first occurrences. -/
def odedup {α : Type} [DecidableEq α] : List α → List α
  | [] => []
  | x :: xs => x :: (odedup xs).filter (fun y => y ≠ x)

/-- `utils.coalesce`: group the values of a key/value stream by key,
keys in first-occurrence order, values in stream order. -/
def coalesce {α β : Type} [DecidableEq α] (pairs : List (α × β)) :
    List (α × List β) :=
  (odedup (pairs.map Prod.fst)).map
    (fun k => (k, (pairs.filter (fun p => p.1 = k)).map Prod.snd))

/-- `str.ljust`. -/
def ljust (w : Nat) (l : Chars) : Chars := l ++ List.replicate (w - l.length) ' '

/-- Join a list of strings with a separator (`sep.join(items)`). -/
def joinSep (sep : Chars) : List Chars → Chars
  | [] => []
  | [x] => x
  | x :: y :: rest => x ++ sep ++ joinSep sep (y :: rest)

/-- Python values that can reach `utils.c_repr` in the modelled calls
(the float case of `c_repr` is not constructible here). -/
inductive CVal : Type
  | str (s : Chars)
  | int (n : Int)
  | bool (b : Bool)
  | pynone
deriving DecidableEq, Repr

/-- `utils.c_repr`. -/
def cRepr : CVal → Chars
  | .bool b => if b then cs "true" else cs "false"
  | .pynone => cs "none"
  | .int n => cs (toString n)
  | .str s => s

/-- Python `str()` of the same values (used by f-string interpolation). -/
def pyStrV : CVal → Chars
  | .str s => s
  | .int n => cs (toString n)
  | .bool b => if b then cs "True" else cs "False"
  | .pynone => cs "None"

/-! ### The emission context (`__META__`) -/

/-- The mutable working state of the `__META__` singleton: the output
buffer, indent depth, the "inside a multi-line `#define`" continuation
flag (`within_macro` in the source), the overload registry, and the
current directive's include-directive output path (used by the
`__codegen` guard and by `_end`). The indent is an `Int` because the
Python counter may in principle go negative (`' ' * n` is empty for
negative `n`). -/
structure MetaState where
  output : Chars
  indent : Int
  mlMode : Bool
  overloads : List (Chars × (List Chars × List Chars))
  includePath : Option String
deriving DecidableEq, Repr

/-- Error message of the `__codegen` guard. -/
def codegenGuardMsg : String :=
  "Using Meta to generate code is only allowed when the meta-directives has an include-directive."

/-- Emit one physical line: reindent, escape the newline when inside a
multi-line `#define`, trim trailing whitespace, append. -/
def emitLine (st : MetaState) (l : Chars) : MetaState :=
  let l1 := List.replicate ((4 * st.indent).toNat) ' ' ++ l
  let l2 := if st.mlMode then l1 ++ ['\\'] else l1
  { st with output := st.output ++ rstripWs l2 ++ ['\n'] }

/-- One argument of `Meta.line`: a plain string or an iterable of strings. -/
inductive LineArg : Type
  | one (s : Chars)
  | many (ss : List Chars)
deriving DecidableEq, Repr

/-- Flatten a `Meta.line` argument to its string list. -/
def lineArgStrings : LineArg → List Chars
  | .one s => [s]
  | .many ss => ss

/-- The literal default argument of `Meta.line()` (a triple-quoted blank
block: newline, blank line, 12 spaces of closing indentation). -/
def lineDefaultArg : Chars := '\n' :: '\n' :: List.replicate 12 ' '

/-- Process a sequence of strings through `Meta.line`'s per-string loop:
dedent, then emit every resulting physical line. A `deindent` failure
aborts, keeping the lines already emitted. -/
def lineStrings (st : MetaState) : List Chars → MetaState × Option String
  | [] => (st, none)
  | s :: rest =>
    match deindent true none s with
    | .error e => (st, some e)
    | .ok d => lineStrings ((splitlinesNo d).foldl emitLine st) rest

/-- `Meta.line(*args)`. -/
def lineM (st : MetaState) (args : List LineArg) : MetaState × Option String :=
  if st.includePath.isNone then (st, some codegenGuardMsg)
  else
    let args := if args.isEmpty then [LineArg.one lineDefaultArg] else args
    lineStrings st (args.map lineArgStrings).flatten

/-- Sequence two state steps, short-circuiting on an error while keeping
the state reached so far (Python exceptions leave mutations in place). -/
def seqE (r : MetaState × Option String) (f : MetaState → MetaState × Option String) :
    MetaState × Option String :=
  match r with
  | (st, none) => f st
  | (st, some e) => (st, some e)

/-- ASCII word characters of the regex class `\w`. -/
def isWordChar (c : Char) : Bool := c.isAlphanum || c = '_'

/-- Does `re.search(r'^\s*(kw)\b', header)` match for one keyword? -/
def kwMatch (kw l : Chars) : Bool :=
  let t := l.dropWhile isPyWs
  kw.isPrefixOf t &&
    (match t.drop kw.length with
     | [] => true
     | c :: _ => !isWordChar c)

/-- The `header_is` helper of `Meta.enter`. -/
def headerIs (header : Option Chars) (kws : List Chars) : Bool :=
  match header with
  | none => false
  | some h => kws.any (fun kw => kwMatch kw h)

/-- `header.strip().endswith('=')`. -/
def headerEndsEq (header : Option Chars) : Bool :=
  match header with
  | none => false
  | some h => (stripWs h).getLast? = some '='

/-- The `(opening, closing, indented)` suggestion triple inferred from the
header by `Meta.enter`. -/
def scopeSuggestion (header : Option Chars) :
    Option Chars × Option Chars × Option Bool :=
  if headerIs header [cs "#define"] then (none, none, none)
  else if headerIs header [cs "#if", cs "#ifdef", cs "#elif", cs "#else"] then
    (none, some (cs "#endif"), none)
  else if headerIs header [cs "assert", cs "static_assert", cs "_Static_assert"] then
    (some (cs "("), some (cs ");"), none)
  else if headerIs header [cs "struct", cs "union", cs "enum"] then
    (some (cs "\x7b"), some (cs "\x7d;"), none)
  else if headerIs header [cs "case"] then
    (some (cs "\x7b"), some (cs "\x7d break;"), none)
  else if headerEndsEq header then
    (some (cs "\x7b"), some (cs "\x7d;"), some true)
  else
    (some (cs "\x7b"), some (cs "\x7d"), none)

/-- The opening delimiter after applying the suggestion default. -/
def resolveOpening (header opening : Option Chars) : Option Chars :=
  match opening with
  | some o => some o
  | none => (scopeSuggestion header).1

/-- The closing delimiter after applying the suggestion default. -/
def resolveClosing (header closing : Option Chars) : Option Chars :=
  match closing with
  | some c => some c
  | none => (scopeSuggestion header).2.1

/-- The extra-indent flag after applying the suggestion default. -/
def resolveIndented (header : Option Chars) (indented : Option Bool) : Option Bool :=
  match indented with
  | some i => some i
  | none => (scopeSuggestion header).2.2

/-- The part of `Meta.enter` before the `yield`: emit the header line,
push the extra indent level, emit the opening delimiter (when truthy). -/
def enterPre (st1 : MetaState) (header opening : Option Chars) (indentedB : Bool) :
    MetaState × Option String :=
  seqE (match header with
        | some h => lineM st1 [.one h]
        | none => (st1, none)) fun st2 =>
  let st3 := if indentedB then { st2 with indent := st2.indent + 1 } else st2
  match opening with
  | some o => if o.isEmpty then (st3, none) else lineM st3 [.one o]
  | none => (st3, none)

/-- The part of `Meta.enter` after the `yield`: pop the body indent,
emit the closing text, pop the extra indent level, and for a macro
definition clear the continuation flag and emit the trailing blank. -/
def enterPost (st6 : MetaState) (closing : Option Chars) (indentedB isDef : Bool) :
    MetaState × Option String :=
  let st7 := { st6 with indent := st6.indent - 1 }
  seqE (match closing with
        | some c => lineM st7 [.one c]
        | none => (st7, none)) fun st8 =>
  let st9 := if indentedB then { st8 with indent := st8.indent - 1 } else st8
  if isDef then lineM { st9 with mlMode := false } []
  else (st9, none)

/-- `Meta.enter(header, opening, closing, indented=...)` driving a body
callback, with `contextlib.contextmanager` semantics: when the body (or
any emission) fails, the code after the `yield` does not run, so no
closing text is emitted and no state is restored. -/
def enter (st0 : MetaState) (header opening closing : Option Chars)
    (indented : Option Bool) (body : MetaState → MetaState × Option String) :
    MetaState × Option String :=
  if st0.includePath.isNone then (st0, some codegenGuardMsg)
  else
    let isDef := headerIs header [cs "#define"]
    let st1 := if isDef then { st0 with mlMode := true } else st0
    seqE (enterPre st1 header (resolveOpening header opening)
          (resolveIndented header indented = some true)) fun st4 =>
    seqE (body { st4 with indent := st4.indent + 1 }) fun st6 =>
    enterPost st6 (resolveClosing header closing)
      (resolveIndented header indented = some true) isDef

/-! ### `Meta.define` -/

/-- The three supported positional-argument shapes of `Meta.define`. -/
inductive DefineArgs : Type
  | simple (name : Chars) (expansion : CVal)
  | listed (name : Chars) (params : List Chars) (expansion : CVal)
  | single (name : Chars) (param : Option Chars) (expansion : CVal)
deriving DecidableEq, Repr

/-- Registry lookup (`name in self.overloads` / `self.overloads[name]`). -/
def ovLookup (ovs : List (Chars × (List Chars × List Chars))) (name : Chars) :
    Option (List Chars × List Chars) :=
  match ovs with
  | [] => none
  | (k, v) :: rest => if k = name then some v else ovLookup rest name

/-- `Meta.define(*args, do_while=..., **overloading)`. Keyword arguments
are modelled as an ordered key/value list. -/
def metaDefine (st0 : MetaState) (args : DefineArgs) (doWhile : Bool)
    (ov : List (Chars × CVal)) : MetaState × Option String :=
  if st0.includePath.isNone then (st0, some codegenGuardMsg)
  else
    let parsed : Chars × Option (List Chars) × CVal :=
      match args with
      | .simple n e => (n, none, e)
      | .listed n ps e => (n, some ps, e)
      | .single n p e => (n, p.map (fun x => [x]), e)
    let name := parsed.1
    let parameters := parsed.2.1
    let expansion := parsed.2.2
    let afterOv : (MetaState × Chars × Option (List Chars)) × Option String :=
      if ov.isEmpty then ((st0, name, parameters), none)
      else
        let ovr := ov.map (fun kv => (kv.1, cRepr kv.2))
        let keys := ovr.map Prod.fst
        match parameters with
        | none =>
          -- `OrderedSet(overloading) - None` raises a TypeError in Python.
          ((st0, name, parameters), some "TypeError: argument of type NoneType is not iterable")
        | some ps =>
          if ((odedup keys).filter (fun k => !ps.contains k)).isEmpty = false then
            ((st0, name, parameters), some "Overloaded argument not in the parameter-list.")
          else
            match ovLookup st0.overloads name with
            | some entry =>
              if entry ≠ (ps, keys) then
                ((st0, name, parameters),
                  some "This overloaded macro instance has a different parameter-list from others.")
              else
                let name1 := cs "__MACRO_OVERLOAD__" ++ name ++ cs "__" ++
                  joinSep (cs "__") (ovr.map Prod.snd)
                let ps1 := (odedup ps).filter (fun p => !keys.contains p)
                ((st0, name1, if ps1.isEmpty then none else some ps1), none)
            | none =>
              let st1 := { st0 with overloads := st0.overloads ++ [(name, (ps, keys))] }
              let name1 := cs "__MACRO_OVERLOAD__" ++ name ++ cs "__" ++
                joinSep (cs "__") (ovr.map Prod.snd)
              let ps1 := (odedup ps).filter (fun p => !keys.contains p)
              ((st1, name1, if ps1.isEmpty then none else some ps1), none)
    match afterOv with
    | (_, some e) => (afterOv.1.1, some e)
    | ((st1, name, parameters), none) =>
      let prototype :=
        match parameters with
        | none => name
        | some ps => name ++ ['('] ++ joinSep (cs ", ") ps ++ [')']
      match deindent true none (cRepr expansion) with
      | .error e => (st1, some e)
      | .ok exp =>
        if exp.contains '\n' then
          enter st1 (some (cs "#define " ++ prototype)) none none none (fun s =>
            if doWhile then
              enter s (some (cs "do")) (some (cs "\x7b"))
                (some (cs "\x7d\nwhile (false)")) none (fun s2 =>
                  lineM s2 [.one exp])
            else lineM s [.one exp])
        else if doWhile then
          lineM st1 [.one (cs "#define " ++ prototype ++ cs " do \x7b " ++ exp ++
            cs " \x7d while (false)")]
        else
          lineM st1 [.one (cs "#define " ++ prototype ++ [' '] ++ exp)]

/-! ### `Meta.enums` -/

/-- One member passed to `Meta.enums`: a bare name or a name/value pair. -/
inductive EnumMember : Type
  | single (name : CVal)
  | pair (name : CVal) (value : CVal)
deriving DecidableEq, Repr

/-- The `' : type'` suffix of the enum header. -/
def enumTypeSuffix (ty : Option Chars) : Chars :=
  match ty with
  | none => []
  | some t => cs " : " ++ t

/-- A triple-quoted one-line f-string block as it appears in the source:
leading newline, `a` spaces of literal indentation, the content line, a
newline and the `b` spaces before the closing quotes. -/
def fragLine (a b : Nat) (core : Chars) : Chars :=
  '\n' :: (List.replicate a ' ' ++ core ++ '\n' :: List.replicate b ' ')

/-- The body of `Meta.enums.__exit__`, shared by the direct call and the
context-manager form (`members` is whatever list was accumulated). -/
def enumsExit (st0 : MetaState) (enumName : Chars) (enumType : Option Chars)
    (members : List EnumMember) (count : Option String) : MetaState × Option String :=
  if st0.includePath.isNone then (st0, some codegenGuardMsg)
  else
    let suffix := enumTypeSuffix enumType
    let mems : List (Chars × Option Chars) :=
      members.map (fun m =>
        match m with
        | .pair n v => (enumName ++ ['_'] ++ cRepr n, some (cRepr v))
        | .single n => (enumName ++ ['_'] ++ cRepr n, none))
    let afterMembers : MetaState × Option String :=
      if mems.isEmpty = false then
        -- `justify` pads the third column (the name) to the widest name.
        let w := (mems.map (fun m => m.1.length)).foldr max 0
        enter st0
          (some (fragLine 20 16 (cs "enum " ++ enumName ++ suffix)))
          none none none (fun s =>
            mems.foldl (fun acc m =>
              seqE acc (fun s2 =>
                match m.2 with
                | none => lineM s2 [.one (m.1 ++ [','])]
                | some v => lineM s2 [.one (ljust w m.1 ++ cs " = " ++ v ++ [','])]))
              (s, none))
      else
        -- no members: forward-declare, since C has no empty enumeration
        lineM st0 [.one (cs "enum " ++ enumName ++ suffix ++ [';'])]
    seqE afterMembers fun st1 =>
    let n := cs (toString mems.length)
    match count with
    | none => (st1, none)
    | some c =>
      if c = "define" then
        metaDefine st1 (.simple (enumName ++ cs "_COUNT") (.int mems.length)) false []
      else if c = "enum" then
        lineM st1 [.one (fragLine 24 20 (cs "enum" ++ suffix ++ cs " \x7b " ++
          enumName ++ cs "_COUNT = " ++ n ++ cs " \x7d;"))]
      else if c = "constexpr" then
        let tyR := enumType.getD (cs "None")
        lineM st1 [.one (fragLine 24 20 (cs "static constexpr " ++ tyR ++ [' '] ++
          enumName ++ cs "_COUNT = " ++ n ++ [';']))]
      else
        (st1, some "Unknown member-count style.")

/-! ### `Meta.lut` -/

/-- Dynamically-typed Python values reaching `Meta.lut` rows: scalars and
tuple/list sequences. -/
inductive PyObj : Type
  | val (v : CVal)
  | tup (items : List PyObj)

mutual

/-- Python `str()` for these values (tuples rendered loosely; the claims
never render a tuple). -/
def pyStrObj : PyObj → Chars
  | .val v => pyStrV v
  | .tup items => ['('] ++ joinSep (cs ", ") (pyStrObjList items) ++ [')']

/-- `str()` of every element of a tuple. -/
def pyStrObjList : List PyObj → List Chars
  | [] => []
  | x :: xs => pyStrObj x :: pyStrObjList xs

end

/-- Is the object a tuple or list (`isinstance(row[0], tuple | list)`)? -/
def isSeqObj : PyObj → Bool
  | .tup _ => true
  | .val _ => false

/-- One parsed member: type (optional), name, rendered value. -/
structure LutMember where
  mtype : Option PyObj
  mname : PyObj
  mvalue : Chars

/-- Parse the members of one row (`case [t, n, v]` / `case [n, v]`),
rejecting a 3-tuple when the table type was given explicitly. -/
def lutParseMembers (typeGiven : Bool) : List PyObj → Except String (List LutMember)
  | [] => .ok []
  | m :: rest =>
    match m with
    | .tup [t, n, v] =>
      if typeGiven then
        .error "Member type should not be given when the table type is already provided."
      else
        match lutParseMembers typeGiven rest with
        | .error e => .error e
        | .ok ms => .ok (⟨some t, n, cRepr (objVal v)⟩ :: ms)
    | .tup [n, v] =>
      match lutParseMembers typeGiven rest with
      | .error e => .error e
      | .ok ms => .ok (⟨none, n, cRepr (objVal v)⟩ :: ms)
    | _ => .error "Unknown row member format."
where
  /-- `c_repr` is applied to the raw member value; scalar values keep
  their `CVal`, sequences fall back to their `str()` rendering. -/
  objVal : PyObj → CVal
    | .val v => v
    | .tup items => .str (pyStrObj (.tup items))

/-- Normalize one raw row: when the first element is a tuple/list the row
has no explicit index (`table_rows[row_i] = [None, *row]`); an empty row
fails Python's tuple unpacking. -/
def lutSplitRow : List PyObj → Except String (Option PyObj × List PyObj)
  | [] => .error "not enough values to unpack"
  | x :: rest =>
    if isSeqObj x then .ok (none, x :: rest)
    else .ok (some x, rest)

/-- Parse every row of the table. -/
def lutParseRows (typeGiven : Bool) :
    List (List PyObj) → Except String (List (Option PyObj × List LutMember))
  | [] => .ok []
  | row :: rest =>
    match lutSplitRow row with
    | .error e => .error e
    | .ok (idx, rawMembers) =>
      match lutParseMembers typeGiven rawMembers with
      | .error e => .error e
      | .ok ms =>
        match lutParseRows typeGiven rest with
        | .error e => .error e
        | .ok rs => .ok ((idx, ms) :: rs)

/-- The synthesized element type (`typeof(value)` for typeless members). -/
def lutFieldDecl (m : LutMember) : Chars :=
  (match m.mtype with
   | some t => pyStrObj t
   | none => cs "typeof(" ++ m.mvalue ++ [')']) ++ [' '] ++ pyStrObj m.mname ++ [';']

/-- The table type: explicit, or synthesized from the first row. -/
def lutTableType (given : Option Chars) (rows : List (Option PyObj × List LutMember)) :
    Chars :=
  match given with
  | some t => t
  | none =>
    match rows with
    | [] => cs "struct \x7b\x7d"
    | (_, ms) :: _ =>
      cs "struct \x7b " ++ joinSep [' '] (ms.map lutFieldDecl) ++ cs " \x7d"

/-- The unjustified index cell of a row (`'[i] = '` or empty). -/
def lutIndexCell (idx : Option PyObj) : Chars :=
  match idx with
  | some i => ['['] ++ pyStrObj i ++ cs "] = "
  | none => []

/-- The unjustified field cell of a member (`'.name = value'`). -/
def lutFieldCell (m : LutMember) : Chars :=
  ['.'] ++ pyStrObj m.mname ++ cs " = " ++ m.mvalue

/-- Column widths over possibly-ragged rows, as `justify` computes them
(per column index, maximum rendered length). -/
def columnWidth (rows : List (List Chars)) (j : Nat) : Nat :=
  (rows.map (fun r => match r.get? j with
    | some cell => cell.length
    | none => 0)).foldr max 0

/-- Justify one row against the column widths of the whole table. -/
def justifyRow (rows : List (List Chars)) (r : List Chars) : List Chars :=
  (List.range r.length).map (fun j => ljust (columnWidth rows j) (r.get? j).toList.flatten)

/-- `Meta.lut(*arguments)`: the table-generation primitive. Argument
shapes `(type, name, rows)` and `(name, rows)` are both modelled; other
arities raise in Python before reaching the body. -/
def lut (st0 : MetaState) (tableType : Option Chars) (tableName : Chars)
    (tableRows : List (List PyObj)) : MetaState × Option String :=
  if st0.includePath.isNone then (st0, some codegenGuardMsg)
  else
    match lutParseRows tableType.isSome tableRows with
    | .error e => (st0, some e)
    | .ok rows =>
      let ty := lutTableType tableType rows
      let cells : List (List Chars) :=
        rows.map (fun r => lutIndexCell r.1 :: r.2.map lutFieldCell)
      enter st0 (some (cs "static const " ++ ty ++ [' '] ++ tableName ++ cs "[] ="))
        none none none (fun s =>
          cells.foldl (fun acc r =>
            seqE acc (fun s2 =>
              match justifyRow cells r with
              | [] => lineM s2 [.one (cs "\x7b  \x7d,")]
              | jidx :: jfields =>
                lineM s2 [.one (jidx ++ cs "\x7b " ++ joinSep (cs ", ") jfields ++
                  cs " \x7d,")]))
            (s, none))

/-! ### `Meta._start` and `Meta._end` -/

/-- `Meta._start`: reset the per-directive working state (buffer, indent,
continuation flag, overload registry) and bind the directive's
include-directive output path. -/
def metaStart (includePath : Option String) : MetaState :=
  { output := [], indent := 0, mlMode := false, overloads := [], includePath := includePath }

/-- Emit the dispatcher ("master") macro of one overload group, exactly
as the loop in `Meta._end` builds it. -/
def emitMaster (st : MetaState) (name : Chars) (ps keys : List Chars) :
    MetaState × Option String :=
  let argList := (odedup ps).filter (fun p => !keys.contains p)
  let argList :=
    if argList.isEmpty = false then ['('] ++ joinSep (cs ", ") argList ++ [')'] else []
  metaDefine st
    (.simple (name ++ ['('] ++ joinSep (cs ", ") ps ++ [')'])
      (.str (cs "__MACRO_OVERLOAD__" ++ name ++ cs "__##" ++ joinSep (cs "##") keys ++
        argList)))
    false []

/-- `Meta._end`: if the directive has an output target, move the buffered
text aside, emit one dispatcher per registered overload group, re-emit
the buffered text after them, and produce the file write. -/
def metaEnd (st : MetaState) : (MetaState × Option (String × Chars)) × Option String :=
  match st.includePath with
  | none => ((st, none), none)
  | some path =>
    let generated := st.output
    let st1 := { st with output := [] }
    let masters :=
      st.overloads.foldl
        (fun acc g => seqE acc (fun s => emitMaster s g.1 g.2.1 g.2.2))
        (st1, none)
    match seqE masters (fun st2 =>
        if generated.isEmpty = false then lineM st2 [.one generated] else (st2, none)) with
    | (st3, some e) => ((st3, none), some e)
    | (st3, none) => ((st3, some (path, st3.output)), none)

/-! ### Scanned meta-directives and the `do` pipeline

The pipeline is modelled from the scanned directive records onward
(`meta_directives` as built by the scanning loop of `do`): consistency
checks, implicit importing, scheduling, per-directive compilation and
execution. Directive bodies are opaque: a directive carries a `bodyId`,
and execution is parametrised by an interpretation `interp` mapping a
body and the valuation of its imported symbols to the values it binds
for each export (`none` when the body never binds that export). -/

/-- A scanned meta-directive record. -/
structure Directive where
  src : String
  headerLine : Nat
  includePath : Option String
  includeLine : Option Nat
  exports : List String
  imports : List String
  explicitImports : List String
  globalExporter : Bool
  bodyId : Nat
  bodyOk : Bool
deriving DecidableEq, Repr

/-- A source location cited by a diagnostic context. -/
abbrev Loc := String × Nat

/-- The header location of a directive. -/
def locOf (d : Directive) : Loc := (d.src, d.headerLine)

/-- The fatal errors of the pipeline. -/
inductive Err : Type
  | duplicateOutputPath (path : String) (locs : List Loc)
  | duplicateExport (sym : String) (locs : List Loc)
  | selfImport (sym : String) (loc : Loc)
  | unresolvedImport (sym : String) (loc : Loc)
  | circularDependency (locs : List Loc)
  | compileError (loc : Loc)
  | unboundExport (sym : String) (loc : Loc)
deriving DecidableEq, Repr

/-- Observable pipeline events, in order: a directive body compiled, a
directive body executed, an output file written. -/
inductive Event : Type
  | compiled (src : String) (headerLine : Nat)
  | executed (src : String) (headerLine : Nat)
  | wrote (path : String)
deriving DecidableEq, Repr

/-- First check of `do`: no two directives share an output path. -/
def checkDupPaths (ds : List Directive) : Option Err :=
  let pairs := ds.filterMap (fun d => d.includePath.map (fun p => (p, d)))
  match (coalesce pairs).find? (fun kv => kv.2.length ≥ 2) with
  | some kv =>
    some (.duplicateOutputPath kv.1 (kv.2.map (fun d => (d.src, d.includeLine.getD 0))))
  | none => none

/-- All directives exporting a symbol, once per occurrence, in order. -/
def exportPairs (ds : List Directive) : List (String × Directive) :=
  ds.flatMap (fun d => d.exports.map (fun s => (s, d)))

/-- Second check of `do`: no symbol is exported twice. -/
def checkDupExports (ds : List Directive) : Option Err :=
  match (coalesce (exportPairs ds)).find? (fun kv => kv.2.length ≥ 2) with
  | some kv => some (.duplicateExport kv.1 (kv.2.map locOf))
  | none => none

/-- Every export anywhere, in first-occurrence order. -/
def allExports (ds : List Directive) : List String :=
  odedup (ds.flatMap (fun d => d.exports))

/-- Third check of `do`: no directive imports its own export, and
every import resolves to some export. -/
def checkImports (ds : List Directive) : Option Err :=
  let alle := allExports ds
  ds.findSome? (fun d =>
    d.imports.findSome? (fun s =>
      if d.exports.contains s then some (.selfImport s (locOf d))
      else if !alle.contains s then some (.unresolvedImport s (locOf d))
      else none))

/-- Implicit importing: a fully bare header imports everything exported
anywhere; then every non-global-exporter also imports the union of the
global exporters' exports. -/
def implicitPhase (ds : List Directive) : List Directive :=
  let alle := allExports ds
  let step1 := ds.map (fun d =>
    if d.exports.isEmpty && d.imports.isEmpty && !d.globalExporter then
      { d with imports := alle }
    else d)
  let gi := odedup ((step1.filter (fun d => d.globalExporter)).flatMap (fun d => d.exports))
  step1.map (fun d =>
    if !d.globalExporter then { d with imports := odedup (d.imports ++ gi) } else d)

/-- Is every import of `d` available already? -/
def satisfied (d : Directive) (avail : List String) : Bool :=
  d.imports.all (fun s => avail.contains s)

/-- Select the first not-yet-scheduled directive whose imports are all
available, removing it from the pool. -/
def pickNext (remaining : List Directive) (avail : List String) :
    Option (Directive × List Directive) :=
  match remaining with
  | [] => none
  | d :: rest =>
    if satisfied d avail then some (d, rest)
    else
      match pickNext rest avail with
      | some (x, r) => some (x, d :: r)
      | none => none

/-- The locations reported on a circular dependency: every remaining
directive that has explicit imports. -/
def circLocs (remaining : List Directive) : List Loc :=
  (remaining.filter (fun d => !d.explicitImports.isEmpty)).map locOf

/-- The scheduling loop (Kahn style): repeatedly pick a directive
whose imports are satisfied, making its exports available; when none can be
picked while some remain, report a circular dependency. Every iteration
removes one directive from the pool, so the pool size bounds the number
of iterations and serves as structural fuel. -/
def scheduleAux : Nat → List Directive → List String → List Directive →
    Except Err (List Directive)
  | _, [], _, acc => .ok acc
  | 0, remaining, _, _ => .error (.circularDependency (circLocs remaining))
  | fuel + 1, d0 :: rest0, avail, acc =>
    match pickNext (d0 :: rest0) avail with
    | some (d, rest) => scheduleAux fuel rest (odedup (avail ++ d.exports)) (acc ++ [d])
    | none => .error (.circularDependency (circLocs (d0 :: rest0)))

/-- Sort the meta-directives into execution order. -/
def schedule (ds : List Directive) : Except Err (List Directive) :=
  scheduleAux ds.length ds [] []

/-- Compile every scheduled directive body individually, stopping at the
first syntactically bad body. -/
def compileAll : List Directive → List Event × Option Err
  | [] => ([], none)
  | d :: rest =>
    if d.bodyOk then
      let r := compileAll rest
      (.compiled d.src d.headerLine :: r.1, r.2)
    else ([], some (.compileError (locOf d)))

/-- The shared symbol table: an association list, later bindings first. -/
abbrev Table (V : Type) := List (String × V)

/-- Dictionary lookup. -/
def lookupT {V : Type} : Table V → String → Option V
  | [], _ => none
  | (k, v) :: t, s => if k = s then some v else lookupT t s

/-- The isolated namespace a directive body sees: exactly its imported
symbols, valued from the shared table (deep-copying is the identity in
this pure model). -/
def envOf {V : Type} (g : Table V) (ims : List String) : String → Option V :=
  fun s => if ims.contains s then lookupT g s else none

/-- Evaluate the declared exports of a body against its namespace; the
first export the body never bound is an error. -/
def evalExports {V : Type} (interp : Nat → (String → Option V) → String → Option V)
    (b : Nat) (env : String → Option V) : List String → Except String (List (String × V))
  | [] => .ok []
  | e :: es =>
    match interp b env e with
    | none => .error e
    | some v =>
      match evalExports interp b env es with
      | .error x => .error x
      | .ok kvs => .ok ((e, v) :: kvs)

/-- Execute the scheduled directives in order, folding each directive's
export values into the shared table and recording execution and
file-write events. -/
def execAll {V : Type} (interp : Nat → (String → Option V) → String → Option V) :
    List Directive → Table V → List Event × Except Err (Table V)
  | [], g => ([], .ok g)
  | d :: rest, g =>
    let ev0 := Event.executed d.src d.headerLine ::
      (match d.includePath with
       | some p => [Event.wrote p]
       | none => [])
    match evalExports interp d.bodyId (envOf g d.imports) d.exports with
    | .error s => (ev0, .error (.unboundExport s (locOf d)))
    | .ok kvs =>
      let g1 := kvs.foldl (fun t p => p :: t) g
      let r := execAll interp rest g1
      (ev0 ++ r.1, r.2)

/-- The modelled `do` pipeline from the scanned directives onward:
consistency checks, implicit importing, scheduling, per-directive
compilation, then execution. -/
def metaRun {V : Type} (interp : Nat → (String → Option V) → String → Option V)
    (ds : List Directive) : List Event × Except Err (Table V) :=
  match checkDupPaths ds with
  | some e => ([], .error e)
  | none =>
    match checkDupExports ds with
    | some e => ([], .error e)
    | none =>
      match checkImports ds with
      | some e => ([], .error e)
      | none =>
        match schedule (implicitPhase ds) with
        | .error e => ([], .error e)
        | .ok out =>
          match compileAll out with
          | (ev, some e) => (ev, .error e)
          | (ev, none) =>
            let r := execAll interp out ([] : Table V)
            (ev ++ r.1, r.2)

/-! ### The synthetic compiled unit and the diagnose formula -/

/-- The synthetic preamble wrapped around every directive body before
compilation: decorator line, `def` line, the optional blank +
`global` lines when the directive has exports, a `pass`, and a blank
separator. -/
def metaCodePrefix (exports : List String) : List (List Char) :=
  [cs "@__META_DECORATOR__(__META_GLOBALS__)", cs "def __META_DIRECTIVE__():"] ++
    (if exports.isEmpty then []
     else [[], cs "    global " ++ (joinSep (cs ", ") (exports.map cs))]) ++
    [cs "    pass"] ++ [[]]

/-- `meta_directive.body_line_number = len(meta_code) + 1`, recorded just
before the body lines are appended. -/
def bodyLineNumber (exports : List String) : Nat := (metaCodePrefix exports).length + 1

/-- The full synthetic unit: preamble plus the (already dedented) body
lines, each non-empty one indented by four spaces. -/
def metaCodeLines (exports : List String) (body : List (List Char)) : List (List Char) :=
  metaCodePrefix exports ++
    body.map (fun l => if l.isEmpty then l else List.replicate 4 ' ' ++ l)

/-- The source line number reported by `diagnose` for a failure at line
`lineno` of a directive's synthetic unit whose header is at `headerLine`:
`(header_line + 1) + lineno - body_line_number`. -/
def diagnoseLine (headerLine : Nat) (exports : List String) (lineno : Int) : Int :=
  ((headerLine : Int) + 1) + lineno - (bodyLineNumber exports : Int)

/-- Two mutually importing directives, used to witness C2. -/
def c2A : Directive := ⟨"c.c", 1, none, none, ["P"], ["Q"], ["Q"], false, 0, true⟩

/-- The partner of `c2A` in the witness cycle. -/
def c2B : Directive := ⟨"d.c", 9, none, none, ["Q"], ["P"], ["P"], false, 1, true⟩

/-- A trivial body interpretation for pipeline witnesses. -/
def trivInterp : Nat → (String → Option Nat) → String → Option Nat :=
  fun _ _ _ => some 0

/-- The directives exporting `s`, once per export occurrence, in order. -/
def exportersOf (ds : List Directive) (s : String) : List Directive :=
  ((exportPairs ds).filter (fun p => p.1 = s)).map Prod.snd

/-- First directive of the C3 counterexample: exports `FOO` and targets
the same output file as its partner. -/
def c3X : Directive := ⟨"x.c", 2, some "same.h", some 1, ["FOO"], [], [], false, 0, true⟩

/-- Second directive of the C3 counterexample. -/
def c3Y : Directive := ⟨"y.c", 5, some "same.h", some 4, ["FOO"], [], [], false, 1, true⟩

/-- Does the run abort with a duplicate-export error? -/
def isDupExportRes {V : Type} (r : List Event × Except Err (Table V)) : Bool :=
  match r.2 with
  | .error (.duplicateExport _ _) => true
  | _ => false

/-- First directive of the C3 witness (no output paths this time). -/
def c3U : Directive := ⟨"u.c", 2, none, none, ["FOO"], [], [], false, 0, true⟩

/-- Second directive of the C3 witness; neither body binds `FOO`
(`trivInterp` is irrelevant: the run aborts before execution). -/
def c3V : Directive := ⟨"v.c", 5, none, none, ["FOO"], [], [], false, 1, true⟩

/-- Substring occurrence. -/
def charsInfix (a b : Chars) : Prop := ∃ p s, b = p ++ a ++ s

/-! ## Claim C6: identifiers in a directive header -/

/-- Python `str.split(sep)` for a single-character separator (always
returns at least one piece). -/
def pySplitOn (sep : Char) : Chars → List Chars
  | [] => [[]]
  | c :: rest =>
    if c = sep then [] :: pySplitOn sep rest
    else
      match pySplitOn sep rest with
      | h :: t => (c :: h) :: t
      | [] => [[c]]

/-- ASCII fragment of Python `str.isidentifier()`. -/
def pyIsIdentifier (l : Chars) : Bool :=
  match l with
  | [] => false
  | c :: rest => (c.isAlpha || c = '_') && rest.all (fun x => x.isAlphanum || x = '_')

/-- Errors of the meta-header parse: a malformed symbol reported at the
header's location, or the `assert False` on a header with more than one
colon. -/
inductive HeaderParseErr : Type
  | badSymbol (sym : Chars) (loc : Loc)
  | assertFail
deriving DecidableEq, Repr

/-- The per-port symbol loop: strip each comma-separated piece, skip
blanks, reject non-identifiers at the header's location. -/
def parsePortSyms (loc : Loc) : List Chars → Except HeaderParseErr (List Chars)
  | [] => .ok []
  | p :: rest =>
    let sym := stripWs p
    if sym.isEmpty then parsePortSyms loc rest
    else if pyIsIdentifier sym then
      match parsePortSyms loc rest with
      | .error e => .error e
      | .ok syms => .ok (sym :: syms)
    else .error (.badSymbol sym loc)

/-- Parse one port (export list or import list): symbols are collected in
order and then de-duplicated by the `OrderedSet` construction. -/
def parsePort (loc : Loc) (port : Chars) : Except HeaderParseErr (List Chars) :=
  match parsePortSyms loc (pySplitOn ',' port) with
  | .error e => .error e
  | .ok syms => .ok (odedup syms)

/-- Parse the meta-header content after the `#meta` tag: an optional
colon separates exports from imports; the scanner also records whether
the import field was present (for the global-exporter rule). -/
def parseMetaHeader (loc : Loc) (content : Chars) :
    Except HeaderParseErr (List Chars × List Chars × Bool) :=
  match pySplitOn ':' content with
  | [exports] =>
    match parsePort loc exports with
    | .error e => .error e
    | .ok exps =>
      match parsePort loc [] with
      | .error e => .error e
      | .ok imps => .ok (exps, imps, false)
  | [exports, imports] =>
    match parsePort loc exports with
    | .error e => .error e
    | .ok exps =>
      match parsePort loc imports with
      | .error e => .error e
      | .ok imps => .ok (exps, imps, true)
  | _ => .error .assertFail

/-! ## Claim C8: the macro-overload registry -/

/-- First overload registration of a two-variant `PICK` group, right
after `_start` of a directive whose output file is `a.h`. -/
def c8Var1 : MetaState × Option String :=
  metaDefine (metaStart (some "a.h"))
    (.listed (cs "PICK") [cs "N", cs "X"] (.str (cs "A"))) false [(cs "N", .int 1)]

/-- Second overload registration of the same group. -/
def c8Var2 : MetaState × Option String :=
  metaDefine c8Var1.1
    (.listed (cs "PICK") [cs "N", cs "X"] (.str (cs "B"))) false [(cs "N", .int 2)]

/-- `_end` of that first directive. -/
def c8End : (MetaState × Option (String × Chars)) × Option String := metaEnd c8Var2.1

/-! ## Claim C5: the scope primitive and state restoration -/

/-- Indent, continuation flag and include path agree. -/
def samePIM (a b : MetaState) : Prop :=
  a.indent = b.indent ∧ a.mlMode = b.mlMode ∧ a.includePath = b.includePath

/-- A concrete `enter` whose body callback raises: the scope primitive
under `contextlib.contextmanager` semantics. -/
def c5Run : MetaState × Option String :=
  enter (metaStart (some "o.h")) (some (cs "if (x)")) none none none
    (fun st => (st, some "boom"))

/-- A body callback that emits one line (it preserves indent and flag). -/
def c5OkBody : MetaState → MetaState × Option String :=
  fun s => lineM s [.one (cs "body;")]

/-- Whether every string of a `Meta.line` call dedents without error
(the only failure mode besides the `__codegen` guard). -/
def stringsOk : List Chars → Bool
  | [] => true
  | s :: rest =>
    match deindent true none s with
    | .error _ => false
    | .ok _ => stringsOk rest

/-- The claim's input transformation: `k` extra leading spaces added
uniformly to every line of the fragment. -/
def padLines (k : Nat) (s : Chars) : Chars :=
  ((splitlinesKeep s).map (fun l => List.replicate k ' ' ++ l)).flatten

/-- Well-formedness of a `splitlines(keepends=True)` decomposition: every
line but the last ends in its only newline; the last is nonempty and has
at most one, trailing, newline. -/
def linesWF : List Chars → Prop
  | [] => True
  | [l] => l ≠ [] ∧ ((∃ b, l = b ++ ['\n'] ∧ '\n' ∉ b) ∨ '\n' ∉ l)
  | l :: rest => (∃ b, l = b ++ ['\n'] ∧ '\n' ∉ b) ∧ linesWF rest

/-- The accumulator step of `globalIndent`, named for reuse. -/
def giStep (comment : Option Chars) (g : Option Nat) (l : Chars) : Option Nat :=
  let isComment :=
    match comment with
    | none => false
    | some p => p.isPrefixOf (stripWs l)
  if !isComment && !(isBlankLine l) then
    match g with
    | none => some (lineIndent l)
    | some g0 => some (min (lineIndent l) g0)
  else g

/-- C9 counterexample: an all-blank fragment inside a multi-line macro.
The continuation backslash protects the added indentation from the
right-strip, so the padded fragment emits different text. -/
def c9State : MetaState :=
  { metaStart (some "o.h") with mlMode := true }

/-- Normal form of the per-directive transformation of `implicitPhase`. -/
def ipF (alle gi : List String) (d : Directive) : Directive :=
  if d.globalExporter then d
  else if d.exports.isEmpty && d.imports.isEmpty then
    { d with imports := odedup (alle ++ gi) }
  else { d with imports := odedup (d.imports ++ gi) }

/-- The union of the global exporters' exports. -/
def giOf (ds : List Directive) : List String :=
  odedup ((ds.filter (fun d => d.globalExporter)).flatMap (fun d => d.exports))

/-- Number of export occurrences of a symbol across a directive list. -/
def expCount (ds : List Directive) (sym : String) : Nat :=
  ((exportPairs ds).filter (fun p => p.1 = sym)).length

/-- The exporter directive of the C1 witness. -/
def c1A : Directive := ⟨"a.c", 1, none, none, ["x"], [], [], false, 0, true⟩

/-- The importer directive of the C1 witness. -/
def c1B : Directive := ⟨"b.c", 1, none, none, [], ["x"], ["x"], false, 1, true⟩

/-- A successful pick removes exactly one element. -/
theorem pickNext_length {remaining : List Directive} {avail : List String}
    {d : Directive} {rest : List Directive}
    (h : pickNext remaining avail = some (d, rest)) :
    rest.length + 1 = remaining.length := by
  induction remaining generalizing rest with
  | nil => simp [pickNext] at h
  | cons a l ih =>
    simp only [pickNext] at h
    split at h
    · cases h; simp
    · cases hl : pickNext l avail with
      | none => rw [hl] at h; cases h
      | some p =>
        rw [hl] at h
        cases h
        have hp : pickNext l avail = some (p.1, p.2) := by rw [hl]
        simp [← ih hp]

/-! ## Claim C10: the syntax-error location formula -/

/-- C10: a syntax error at body-relative line `K` of a directive whose
header is at source line `H` is reported at a source location computed
by the one fixed formula `(H + 1) + lineno - body_line_number`, where
`lineno = body_line_number + K - 1` is the failing line of the synthetic
unit; the formula evaluates to `H + K` for every export list (zero, one
or several exports only move the synthetic preamble). The first conjunct
checks that line `body_line_number + K - 1` of the synthetic unit is
indeed the `K`-th body line. -/
theorem C10_diagnose_formula :
    ∀ (H K : Nat) (exports : List String) (body : List (List Char)),
      (metaCodeLines exports body)[(metaCodePrefix exports).length + (K - 1)]? =
        body[K - 1]?.map
          (fun l => if l.isEmpty then l else List.replicate 4 ' ' ++ l) ∧
      diagnoseLine H exports ((bodyLineNumber exports : Int) + (K : Int) - 1) =
        (H : Int) + (K : Int) := by
  intro H K exports body
  constructor
  · unfold metaCodeLines
    rw [List.getElem?_append_right (by omega)]
    have hsub : (metaCodePrefix exports).length + (K - 1) -
        (metaCodePrefix exports).length = K - 1 := by omega
    rw [hsub, List.getElem?_map]
  · unfold diagnoseLine
    omega

/-! ## Claim C2: circular-dependency abort -/

/-- When no remaining directive is selectable, every remaining
directive fails the satisfaction test, so `pickNext` yields nothing. -/
theorem pickNext_none {remaining : List Directive} {avail : List String}
    (h : ∀ d ∈ remaining, satisfied d avail = false) :
    pickNext remaining avail = none := by
  induction remaining with
  | nil => rfl
  | cons a l ih =>
    simp only [pickNext]
    rw [h a (by simp), ih (fun d hd => h d (by simp [hd]))]
    simp

/-- C2: whenever, during scheduling, at least one directive remains but
none has all of its imports available, the scheduler aborts with a
circular-dependency error whose locations are exactly the remaining
directives that have explicit imports; and whenever the scheduling stage
of the pipeline fails, the pipeline returns that error with an empty
event log — no directive has been compiled or executed and no output
file has been written. -/
theorem C2_circular_abort :
    (∀ (fuel : Nat) (remaining : List Directive) (avail : List String)
        (acc : List Directive),
      remaining ≠ [] →
      (∀ d ∈ remaining, satisfied d avail = false) →
      scheduleAux fuel remaining avail acc =
        .error (.circularDependency (circLocs remaining))) ∧
    (∀ (V : Type) (interp : Nat → (String → Option V) → String → Option V)
        (ds : List Directive) (err : Err),
      checkDupPaths ds = none → checkDupExports ds = none →
      checkImports ds = none →
      schedule (implicitPhase ds) = .error err →
      metaRun interp ds = ([], .error err)) := by
  constructor
  · intro fuel remaining avail acc hne h
    match fuel, remaining with
    | _, [] => exact absurd rfl hne
    | 0, _ :: _ => rfl
    | fuel + 1, d0 :: rest0 =>
      simp only [scheduleAux]
      rw [pickNext_none h]
  · intro V interp ds err h1 h2 h3 h4
    unfold metaRun
    rw [h1, h2, h3, h4]

/-- Witness for C2: the two-directive cycle is stuck immediately, the
scheduler reports both locations, and the pipeline aborts with an empty
event log. -/
theorem C2_circular_abort_witness :
    (([c2A, c2B] : List Directive) ≠ [] ∧
      (∀ d ∈ [c2A, c2B], satisfied d [] = false) ∧
      scheduleAux 2 [c2A, c2B] [] [] =
        .error (.circularDependency (circLocs [c2A, c2B]))) ∧
    (checkDupPaths [c2A, c2B] = none ∧ checkDupExports [c2A, c2B] = none ∧
      checkImports [c2A, c2B] = none ∧
      schedule (implicitPhase [c2A, c2B]) =
        .error (.circularDependency [("c.c", 1), ("d.c", 9)]) ∧
      metaRun trivInterp [c2A, c2B] =
        ([], .error (.circularDependency [("c.c", 1), ("d.c", 9)]))) :=
  ⟨⟨by decide, by decide,
      C2_circular_abort.1 2 [c2A, c2B] [] [] (by decide) (by decide)⟩,
    by decide, by decide, by decide, by rfl,
    C2_circular_abort.2 Nat trivInterp [c2A, c2B]
      (.circularDependency [("c.c", 1), ("d.c", 9)])
      (by decide) (by decide) (by decide) (by rfl)⟩

/-! ## Claim C3: duplicate-export abort -/

/-- Membership is invariant under ordered de-duplication. -/
theorem mem_odedup {α : Type} [DecidableEq α] {a : α} {l : List α} :
    a ∈ odedup l ↔ a ∈ l := by
  induction l with
  | nil => simp [odedup]
  | cons x xs ih =>
    simp only [odedup, List.mem_cons, List.mem_filter, ih]
    by_cases hax : a = x
    · simp [hax]
    · simp [hax]

/-- `find?` returns the unique satisfying element when everything else
fails the predicate. -/
theorem find?_of_unique {α : Type} {q : α → Bool} {l : List α} {s : α}
    (hmem : s ∈ l) (hs : q s = true) (hother : ∀ x ∈ l, x ≠ s → q x = false) :
    l.find? q = some s := by
  induction l with
  | nil => cases hmem
  | cons x xs ih =>
    by_cases hxs : x = s
    · subst hxs
      simp [List.find?, hs]
    · have hqx : q x = false := hother x (by simp) hxs
      have hmem' : s ∈ xs := by
        cases hmem with
        | head => exact absurd rfl hxs
        | tail _ h => exact h
      simp [List.find?, hqx]
      exact ih hmem' (fun y hy hne => hother y (by simp [hy]) hne)

/-- The duplicate-export check fires on the one duplicated symbol and
cites every exporter of that symbol. -/
theorem checkDupExports_fires {ds : List Directive} {s : String}
    {d1 d2 : Directive}
    (hocc : exportersOf ds s = [d1, d2])
    (huniq : ∀ s' ∈ (exportPairs ds).map Prod.fst, s' ≠ s →
      (exportersOf ds s').length ≤ 1) :
    checkDupExports ds = some (.duplicateExport s [locOf d1, locOf d2]) := by
  have hsmem : s ∈ (exportPairs ds).map Prod.fst := by
    have h1 : d1 ∈ exportersOf ds s := by rw [hocc]; simp
    unfold exportersOf at h1
    rcases List.mem_map.mp h1 with ⟨p, hp, hpd⟩
    rcases List.mem_filter.mp hp with ⟨hpmem, hps⟩
    exact List.mem_map.mpr ⟨p, hpmem, by simpa using hps⟩
  have hmain : (coalesce (exportPairs ds)).find?
      (fun kv => kv.2.length ≥ 2) = some (s, [d1, d2]) := by
    unfold coalesce
    rw [List.find?_map]
    have hfind : (odedup ((exportPairs ds).map Prod.fst)).find?
        ((fun kv : String × List Directive => decide (kv.2.length ≥ 2)) ∘
          (fun k => (k, ((exportPairs ds).filter (fun p => p.1 = k)).map Prod.snd))) =
        some s := by
      apply find?_of_unique
      · rw [mem_odedup]; exact hsmem
      · show decide ((exportersOf ds s).length ≥ 2) = true
        rw [hocc]; simp
      · intro x hx hne
        show decide ((exportersOf ds x).length ≥ 2) = false
        have := huniq x (mem_odedup.mp hx) hne
        simp
        omega
    rw [hfind]
    show some (s, exportersOf ds s) = _
    rw [hocc]
  unfold checkDupExports
  rw [hmain]
  rfl

/-- C3 (amended): provided no two directives share an output target path
(that check runs first in the source), a run in which `s` is exported by
exactly the two directives `d1` and `d2` — and no other identifier is
multiply exported — aborts with a duplicate-export error citing both
directives' header locations, with an empty event log: no directive body
has been compiled or executed, whether or not any body binds `s`. -/
theorem C3_duplicate_export {V : Type}
    (interp : Nat → (String → Option V) → String → Option V)
    {ds : List Directive} {s : String} {d1 d2 : Directive}
    (hpath : checkDupPaths ds = none)
    (hocc : exportersOf ds s = [d1, d2])
    (huniq : ∀ s' ∈ (exportPairs ds).map Prod.fst, s' ≠ s →
      (exportersOf ds s').length ≤ 1) :
    metaRun interp ds = ([], .error (.duplicateExport s [locOf d1, locOf d2])) := by
  unfold metaRun
  rw [hpath, checkDupExports_fires hocc huniq]

/-- Counterexample to C3 as stated: two directives both export `FOO`,
but they also share an output path, and the duplicate-output-path check
runs first — the run aborts with a duplicate-output-path error, not a
duplicate-export error. -/
theorem C3_duplicate_export_counterexample :
    metaRun trivInterp [c3X, c3Y] =
      ([], .error (.duplicateOutputPath "same.h" [("x.c", 1), ("y.c", 4)])) ∧
    isDupExportRes (metaRun trivInterp [c3X, c3Y]) = false :=
  ⟨rfl, rfl⟩

/-- Witness for the amended C3. -/
theorem C3_duplicate_export_witness :
    (checkDupPaths [c3U, c3V] = none ∧
      exportersOf [c3U, c3V] "FOO" = [c3U, c3V] ∧
      (∀ s' ∈ (exportPairs [c3U, c3V]).map Prod.fst, s' ≠ "FOO" →
        (exportersOf [c3U, c3V] s').length ≤ 1)) ∧
    metaRun trivInterp [c3U, c3V] =
      ([], .error (.duplicateExport "FOO" [locOf c3U, locOf c3V])) :=
  ⟨⟨by decide, by decide, by decide⟩,
    C3_duplicate_export trivInterp (by decide) (by decide) (by decide)⟩

/-! ## Text-layer lemmas -/

theorem splitlinesKeep_append_nl {A B : Chars} (h : '\n' ∉ A) :
    splitlinesKeep (A ++ '\n' :: B) = (A ++ ['\n']) :: splitlinesKeep B := by
  induction A with
  | nil => simp [splitlinesKeep]
  | cons c rest ih =>
    have hc : c ≠ '\n' := fun hc => h (hc ▸ List.mem_cons_self c rest)
    have hr : '\n' ∉ rest := fun hr => h (List.mem_cons_of_mem c hr)
    simp only [List.cons_append, splitlinesKeep, if_neg hc, List.append_eq, ih hr]

theorem splitlinesKeep_noNl {s : Chars} (hne : s ≠ []) (h : '\n' ∉ s) :
    splitlinesKeep s = [s] := by
  induction s with
  | nil => exact absurd rfl hne
  | cons c rest ih =>
    have hc : c ≠ '\n' := fun hc => h (hc ▸ List.mem_cons_self c rest)
    have hr : '\n' ∉ rest := fun hr => h (List.mem_cons_of_mem c hr)
    simp only [splitlinesKeep, if_neg hc]
    cases hrest : rest with
    | nil => rfl
    | cons x xs => rw [← hrest, ih (by simp [hrest]) hr]

theorem pySplitLast_pad (n : Nat) (X : Chars) :
    pySplitLast n (List.replicate n ' ' ++ X) = X := by
  induction n with
  | zero => rfl
  | succ m ih =>
    simp only [List.replicate_succ, List.cons_append, pySplitLast, afterFirstSpace,
      if_pos rfl]
    exact ih

theorem pySplitLast_spaces {k m : Nat} (h : k ≤ m) :
    pySplitLast m (List.replicate k ' ') = [] := by
  induction k generalizing m with
  | zero =>
    cases m with
    | zero => rfl
    | succ m' => simp [pySplitLast, afterFirstSpace]
  | succ k' ih =>
    cases m with
    | zero => omega
    | succ m' =>
      simp only [List.replicate_succ, pySplitLast, afterFirstSpace, if_pos rfl]
      exact ih (by omega)

theorem rstripWs_nonws {l : Chars} {c : Char} (h : isPyWs c = false) :
    rstripWs (l ++ [c]) = l ++ [c] := by
  unfold rstripWs pyRstrip
  rw [List.reverse_append]
  simp [List.dropWhile, h]

theorem isBlank_cons_false {c : Char} {l : Chars} (h : isPyWs c = false) :
    isBlankLine (c :: l) = false := by
  unfold isBlankLine stripWs pyLstrip pyRstrip
  rw [List.dropWhile_cons_of_neg (by simp [h])]
  rcases hdw : List.dropWhile isPyWs (c :: l).reverse with _ | ⟨x, xs⟩
  · have := List.dropWhile_eq_nil_iff.mp hdw c (by simp)
    rw [h] at this
    cases this
  · simp

theorem lineIndent_cons {c : Char} {l : Chars} (h : c ≠ ' ') :
    lineIndent (c :: l) = 0 := by
  unfold lineIndent
  rw [List.takeWhile_cons_of_neg (by simp [h])]
  rfl

theorem tabIndent_cons {c : Char} {l : Chars} (h1 : c ≠ ' ') (h2 : c ≠ '\t') :
    tabIndent (c :: l) = false := by
  unfold tabIndent
  rw [List.dropWhile_cons_of_neg (by simp [h1])]
  simp [h2]

theorem pyLstrip_pad (k : Nat) (X : Chars) :
    pyLstrip isPyWs (List.replicate k ' ' ++ X) = pyLstrip isPyWs X := by
  induction k with
  | zero => simp
  | succ m ih =>
    simp only [List.replicate_succ, List.cons_append, pyLstrip, List.dropWhile]
    simp only [pyLstrip] at ih
    simpa using ih

theorem isBlank_pad (k : Nat) (X : Chars) :
    isBlankLine (List.replicate k ' ' ++ X) = isBlankLine X := by
  unfold isBlankLine stripWs
  rw [pyLstrip_pad]

theorem isBlank_spaces (k : Nat) : isBlankLine (List.replicate k ' ') = true := by
  have := isBlank_pad k []
  simpa using this

theorem lineIndent_pad (k : Nat) (X : Chars) :
    lineIndent (List.replicate k ' ' ++ X) = k + lineIndent X := by
  induction k with
  | zero => simp
  | succ m ih =>
    simp only [List.replicate_succ, List.cons_append, lineIndent]
    rw [List.takeWhile_cons_of_pos (by simp)]
    simp only [lineIndent] at ih
    simp [ih]
    omega

theorem tabIndent_pad (k : Nat) (X : Chars) :
    tabIndent (List.replicate k ' ' ++ X) = tabIndent X := by
  unfold tabIndent
  congr 1
  induction k with
  | zero => simp
  | succ m ih =>
    simp only [List.replicate_succ, List.cons_append]
    rw [List.dropWhile_cons_of_pos (by simp)]
    exact ih

theorem tabIndent_spaces (k : Nat) : tabIndent (List.replicate k ' ') = false := by
  have := tabIndent_pad k []
  simp only [List.append_nil] at this
  simp [this, tabIndent]

theorem chompNl_concat (X : Chars) : chompNl (X ++ ['\n']) = X := by
  unfold chompNl
  rw [List.getLast?_concat, List.dropLast_concat]
  simp

theorem chompNl_noNl {s : Chars} (h : '\n' ∉ s) : chompNl s = s := by
  unfold chompNl
  cases hl : s.getLast? with
  | none => simp
  | some c =>
    by_cases hc : c = '\n'
    · subst hc
      exact absurd (List.mem_of_mem_getLast? hl) h
    · simp [hc]

theorem globalIndent_single {s : Chars} (h3 : isBlankLine s = false) :
    globalIndent none [s] = some (lineIndent s) := by
  simp [globalIndent, h3]

/-- `deindent` is the identity on a single line with no indentation. -/
theorem deindent_single {s : Chars} (h0 : s ≠ []) (h1 : '\n' ∉ s)
    (h2 : lineIndent s = 0) (h3 : isBlankLine s = false) (h4 : tabIndent s = false) :
    deindent true none s = .ok s := by
  unfold deindent
  rw [splitlinesKeep_noNl h0 h1]
  simp [h3, h4, globalIndent_single, h2, pySplitLast]

theorem isNone_false_of_isSome {o : Option String} (h : o.isSome = true) :
    o.isNone = false := by
  cases o <;> simp_all

/-- `Meta.line` on one unindented single-line string just emits it. -/
theorem lineM_single {st : MetaState} {s : Chars} (hp : st.includePath.isSome = true)
    (h0 : s ≠ []) (h1 : '\n' ∉ s) (h2 : lineIndent s = 0) (h3 : isBlankLine s = false)
    (h4 : tabIndent s = false) :
    lineM st [.one s] = (emitLine st s, none) := by
  unfold lineM
  rw [isNone_false_of_isSome hp]
  simp only [Bool.false_eq_true, if_false, List.isEmpty_cons, List.map_cons,
    List.map_nil, lineArgStrings, List.flatten, List.append_nil]
  unfold lineStrings
  rw [deindent_single h0 h1 h2 h3 h4]
  show lineStrings (List.foldl emitLine st (splitlinesNo s)) [] = (emitLine st s, none)
  unfold splitlinesNo
  rw [splitlinesKeep_noNl h0 h1]
  simp [chompNl_noNl h1, lineStrings]

/-- `deindent` on a triple-quoted one-line block keeps only the dedented
content line. -/
theorem deindent_frag {a b : Nat} {c : Char} {t : Chars}
    (hb : 0 < b) (hba : b ≤ a) (h1 : '\n' ∉ c :: t) (hc : isPyWs c = false) :
    deindent true none (fragLine a b (c :: t)) = .ok ((c :: t) ++ ['\n']) := by
  have hcsp : c ≠ ' ' := fun h => by rw [h] at hc; cases hc
  have hctab : c ≠ '\t' := fun h => by rw [h] at hc; cases hc
  have hA : '\n' ∉ List.replicate a ' ' ++ c :: t := by
    intro hmem
    rcases List.mem_append.mp hmem with hm | hm
    · cases List.eq_of_mem_replicate hm
    · exact h1 hm
  have hassoc : List.replicate a ' ' ++ c :: t ++ ['\n'] =
      List.replicate a ' ' ++ (c :: (t ++ ['\n'])) := by
    rw [List.append_assoc]; rfl
  have hblank1 : isBlankLine (List.replicate a ' ' ++ c :: t ++ ['\n']) = false := by
    rw [hassoc, isBlank_pad, isBlank_cons_false hc]
  have htab1 : tabIndent (List.replicate a ' ' ++ c :: t ++ ['\n']) = false := by
    rw [hassoc, tabIndent_pad, tabIndent_cons hcsp hctab]
  unfold fragLine deindent
  have hsplit0 : splitlinesKeep
      ('\n' :: (List.replicate a ' ' ++ c :: t ++ '\n' :: List.replicate b ' ')) =
      ['\n'] ::
        splitlinesKeep (List.replicate a ' ' ++ c :: t ++ '\n' :: List.replicate b ' ') := by
    simp [splitlinesKeep]
  rw [hsplit0, splitlinesKeep_append_nl hA,
    splitlinesKeep_noNl (by simp [List.replicate, Nat.pos_iff_ne_zero.mp hb])
      (by intro hm; cases List.eq_of_mem_replicate hm)]
  have hblnl : isBlankLine ['\n'] = true := by decide
  simp only [hblnl, if_pos rfl, if_true]
  rw [if_neg (by
    simp only [List.any_cons, List.any_nil, htab1, tabIndent_spaces]
    simp)]
  have hblank1' : isBlankLine (List.replicate a ' ' ++ c :: (t ++ ['\n'])) = false := by
    rw [isBlank_pad, isBlank_cons_false hc]
  have hind1' : lineIndent (List.replicate a ' ' ++ c :: (t ++ ['\n'])) = a := by
    rw [lineIndent_pad, lineIndent_cons hcsp]
    omega
  have hgi : globalIndent none
      [List.replicate a ' ' ++ c :: t ++ ['\n'], List.replicate b ' '] = some a := by
    simp [globalIndent, hblank1', hind1', isBlank_spaces]
  rw [hgi]
  have hped : pySplitLast a (List.replicate a ' ' ++ c :: t ++ ['\n']) =
      c :: t ++ ['\n'] := by
    rw [List.append_assoc]
    exact pySplitLast_pad a _
  simp only [List.map_cons, List.map_nil, hped, pySplitLast_spaces hba]
  simp

/-- `Meta.line` on a triple-quoted one-line block emits the dedented
content line. -/
theorem lineM_frag {st : MetaState} {a b : Nat} {c : Char} {t : Chars}
    (hp : st.includePath.isSome = true) (hb : 0 < b) (hba : b ≤ a)
    (h1 : '\n' ∉ c :: t) (hc : isPyWs c = false) :
    lineM st [.one (fragLine a b (c :: t))] = (emitLine st (c :: t), none) := by
  unfold lineM
  rw [isNone_false_of_isSome hp]
  simp only [Bool.false_eq_true, if_false, List.isEmpty_cons, List.map_cons,
    List.map_nil, lineArgStrings, List.flatten, List.append_nil]
  unfold lineStrings
  rw [deindent_frag hb hba h1 hc]
  show lineStrings (List.foldl emitLine st (splitlinesNo (c :: t ++ ['\n']))) [] =
    (emitLine st (c :: t), none)
  unfold splitlinesNo
  rw [splitlinesKeep_append_nl h1]
  have hch : chompNl (c :: (t ++ ['\n'])) = c :: t := chompNl_concat (c :: t)
  simp [splitlinesKeep, hch, lineStrings]

theorem charsInfix_extend {a b t : Chars} (h : charsInfix a b) :
    charsInfix a (b ++ t) := by
  rcases h with ⟨p, s, hps⟩
  exact ⟨p, s ++ t, by simp [hps]⟩

/-- The emitted physical line contains its text verbatim when the text
ends in a non-whitespace character. -/
theorem emitLine_charsInfix (st : MetaState) (X : Chars) (c : Char)
    (hcw : isPyWs c = false) :
    charsInfix (X ++ [c]) (emitLine st (X ++ [c])).output := by
  unfold emitLine charsInfix
  cases hm : st.mlMode
  · simp only [Bool.false_eq_true, if_false]
    rw [show List.replicate ((4 * st.indent).toNat) ' ' ++ (X ++ [c]) =
      (List.replicate ((4 * st.indent).toNat) ' ' ++ X) ++ [c] from by simp,
      rstripWs_nonws hcw]
    exact ⟨st.output ++ List.replicate ((4 * st.indent).toNat) ' ', ['\n'], by simp⟩
  · simp only [if_true]
    rw [show (List.replicate ((4 * st.indent).toNat) ' ' ++ (X ++ [c])) ++ ['\\'] =
      ((List.replicate ((4 * st.indent).toNat) ' ' ++ X) ++ [c]) ++ ['\\'] from by simp]
    rw [show ((List.replicate ((4 * st.indent).toNat) ' ' ++ X) ++ [c]) ++ ['\\'] =
      (((List.replicate ((4 * st.indent).toNat) ' ' ++ X) ++ [c])) ++ ['\\'] from rfl,
      rstripWs_nonws (by decide)]
    exact ⟨st.output ++ List.replicate ((4 * st.indent).toNat) ' ',
      ['\\'] ++ ['\n'], by simp⟩

/-- `emitLine` only appends to the output buffer. -/
theorem emitLine_extends (st : MetaState) (l : Chars) :
    ∃ t, (emitLine st l).output = st.output ++ t := by
  unfold emitLine
  exact ⟨_, List.append_assoc _ _ _⟩

/-- The per-string loop of `Meta.line` only appends to the output. -/
theorem lineStrings_extends (st : MetaState) (ss : List Chars) :
    ∃ t, (lineStrings st ss).1.output = st.output ++ t := by
  induction ss generalizing st with
  | nil => exact ⟨[], by simp [lineStrings]⟩
  | cons s rest ih =>
    unfold lineStrings
    cases hd : deindent true none s with
    | error e => exact ⟨[], by simp⟩
    | ok d =>
      have hfold : ∃ t, (List.foldl emitLine st (splitlinesNo d)).output =
          st.output ++ t := by
        generalize splitlinesNo d = ls
        induction ls generalizing st with
        | nil => exact ⟨[], by simp⟩
        | cons l rest2 ih2 =>
          rcases ih2 (emitLine st l) with ⟨t2, ht2⟩
          rcases emitLine_extends st l with ⟨t1, ht1⟩
          exact ⟨t1 ++ t2, by simp [List.foldl, ht2, ht1]⟩
      rcases hfold with ⟨t1, ht1⟩
      rcases ih (List.foldl emitLine st (splitlinesNo d)) with ⟨t2, ht2⟩
      exact ⟨t1 ++ t2, by simp [ht2, ht1]⟩

/-- `Meta.line` only appends to the output. -/
theorem lineM_extends (st : MetaState) (args : List LineArg) :
    ∃ t, (lineM st args).1.output = st.output ++ t := by
  unfold lineM
  cases hn : st.includePath.isNone
  · simp only [Bool.false_eq_true, if_false]
    exact lineStrings_extends st _
  · exact ⟨[], by simp⟩

theorem charsInfix_mono {a : Chars} {st : MetaState} {out : Chars}
    (h : charsInfix a st.output) (hext : ∃ t, out = st.output ++ t) :
    charsInfix a out := by
  rcases hext with ⟨t, ht⟩
  rw [ht]
  exact charsInfix_extend h

/-! ## Claim C4: the empty enumeration -/

/-- Counterexample to C4 as stated: calling the enumeration primitive
with an empty member list is not rejected — it succeeds and emits a
forward declaration plus a zero count artifact. -/
theorem C4_empty_enum_counterexample :
    (enumsExit (metaStart (some "out.h")) (cs "Color") (some (cs "u8")) []
        (some "constexpr")).2 = none ∧
    (enumsExit (metaStart (some "out.h")) (cs "Color") (some (cs "u8")) []
        (some "constexpr")).1.output =
      cs "enum Color : u8;\nstatic constexpr u8 Color_COUNT = 0;\n" :=
  ⟨rfl, rfl⟩

/-- C4 (amended): calling the enumeration primitive with an empty member
list (directly, or by closing its member-collecting context-manager with
zero members) does not raise a validation error: it emits a forward
declaration `enum <name><suffix>;` (plus, under the default count
strategy, a count artifact of 0). -/
theorem C4_empty_enum (st : MetaState) (name : Chars) (ty : Option Chars)
    (hp : st.includePath.isSome = true)
    (hn : '\n' ∉ name) (hsuf : '\n' ∉ enumTypeSuffix ty)
    (htyR : '\n' ∉ ty.getD (cs "None")) :
    (enumsExit st name ty [] (some "constexpr")).2 = none ∧
    charsInfix (cs "enum " ++ name ++ enumTypeSuffix ty ++ [';'])
      (enumsExit st name ty [] (some "constexpr")).1.output := by
  have hstep : enumsExit st name ty [] (some "constexpr") =
      seqE (lineM st [.one (cs "enum " ++ name ++ enumTypeSuffix ty ++ [';'])])
        (fun st1 => lineM st1 [.one (fragLine 24 20
          (cs "static constexpr " ++ ty.getD (cs "None") ++ [' '] ++ name ++
            cs "_COUNT = " ++ cs "0" ++ [';']))]) := by
    unfold enumsExit
    rw [isNone_false_of_isSome hp]
    simp only [Bool.false_eq_true, if_false, List.map_nil, List.isEmpty_nil,
      List.length_nil]
    rfl
  have hdecl : cs "enum " ++ name ++ enumTypeSuffix ty ++ [';'] =
      'e' :: (cs "num " ++ name ++ enumTypeSuffix ty ++ [';']) := rfl
  have h1 : '\n' ∉ cs "enum " ++ name ++ enumTypeSuffix ty ++ [';'] := by
    intro hm
    simp only [List.mem_append] at hm
    rcases hm with ((hm | hm) | hm) | hm
    · revert hm; decide
    · exact hn hm
    · exact hsuf hm
    · revert hm; decide
  have hlin1 : lineM st [.one (cs "enum " ++ name ++ enumTypeSuffix ty ++ [';'])] =
      (emitLine st (cs "enum " ++ name ++ enumTypeSuffix ty ++ [';']), none) := by
    apply lineM_single hp
    · rw [hdecl]; simp
    · exact h1
    · rw [hdecl]; exact lineIndent_cons (by decide)
    · rw [hdecl]; exact isBlank_cons_false (by decide)
    · rw [hdecl]; exact tabIndent_cons (by decide) (by decide)
  have hcore : cs "static constexpr " ++ ty.getD (cs "None") ++ [' '] ++ name ++
      cs "_COUNT = " ++ cs "0" ++ [';'] =
      's' :: (cs "tatic constexpr " ++ ty.getD (cs "None") ++ [' '] ++ name ++
        cs "_COUNT = " ++ cs "0" ++ [';']) := rfl
  have h1core : '\n' ∉ 's' :: (cs "tatic constexpr " ++ ty.getD (cs "None") ++ [' '] ++
      name ++ cs "_COUNT = " ++ cs "0" ++ [';']) := by
    intro hm
    simp only [List.mem_cons, List.mem_append] at hm
    rcases hm with hm | ((((((hm | hm) | hm) | hm) | hm) | hm) | hm)
    · cases hm
    · revert hm; decide
    · exact htyR hm
    · revert hm; decide
    · exact hn hm
    · revert hm; decide
    · revert hm; decide
    · revert hm; decide
  set st1 := emitLine st (cs "enum " ++ name ++ enumTypeSuffix ty ++ [';']) with hst1
  have hp1 : st1.includePath.isSome = true := by
    rw [hst1]; exact hp
  have hlin2 : lineM st1 [.one (fragLine 24 20
      (cs "static constexpr " ++ ty.getD (cs "None") ++ [' '] ++ name ++
        cs "_COUNT = " ++ cs "0" ++ [';']))] =
      (emitLine st1 (cs "static constexpr " ++ ty.getD (cs "None") ++ [' '] ++ name ++
        cs "_COUNT = " ++ cs "0" ++ [';']), none) := by
    rw [hcore]
    exact lineM_frag hp1 (by omega) (by omega) h1core (by decide)
  have hresult : enumsExit st name ty [] (some "constexpr") =
      (emitLine st1 (cs "static constexpr " ++ ty.getD (cs "None") ++ [' '] ++ name ++
        cs "_COUNT = " ++ cs "0" ++ [';']), none) := by
    rw [hstep, hlin1]
    show lineM st1 _ = _
    exact hlin2
  rw [hresult]
  refine ⟨rfl, ?_⟩
  have hinf1 : charsInfix (cs "enum " ++ name ++ enumTypeSuffix ty ++ [';'])
      st1.output := by
    rw [hst1]
    exact emitLine_charsInfix st (cs "enum " ++ name ++ enumTypeSuffix ty) ';'
      (by decide)
  exact charsInfix_mono hinf1 (emitLine_extends st1 _)

/-- Witness for the amended C4 at a concrete call. -/
theorem C4_empty_enum_witness :
    ((metaStart (some "out.h")).includePath.isSome = true ∧
      '\n' ∉ cs "Color" ∧ '\n' ∉ enumTypeSuffix (some (cs "u8")) ∧
      '\n' ∉ (some (cs "u8")).getD (cs "None")) ∧
    ((enumsExit (metaStart (some "out.h")) (cs "Color") (some (cs "u8")) []
        (some "constexpr")).2 = none ∧
      charsInfix (cs "enum " ++ cs "Color" ++ enumTypeSuffix (some (cs "u8")) ++ [';'])
        (enumsExit (metaStart (some "out.h")) (cs "Color") (some (cs "u8")) []
          (some "constexpr")).1.output) :=
  ⟨⟨by decide, by decide, by decide, by decide⟩,
    C4_empty_enum (metaStart (some "out.h")) (cs "Color") (some (cs "u8"))
      (by decide) (by decide) (by decide) (by decide)⟩

/-- Counterexample to C6 as stated: a repeated identifier in one
kind-list is not a fatal parse error — the header parses successfully
and the duplicate is silently dropped; a malformed name in the same
position is fatal. -/
theorem C6_header_dup_counterexample :
    parseMetaHeader ("f.c", 3) (cs " A, A") = .ok ([cs "A"], [], false) ∧
    parseMetaHeader ("f.c", 3) (cs " A, 3x") =
      .error (.badSymbol (cs "3x") ("f.c", 3)) :=
  ⟨rfl, rfl⟩

/-- The symbol loop succeeds on blank-or-identifier pieces, keeping the
non-blank symbols in order. -/
theorem parsePortSyms_ok {loc : Loc} {ps : List Chars}
    (h : ∀ p ∈ ps, stripWs p = [] ∨ pyIsIdentifier (stripWs p) = true) :
    parsePortSyms loc ps =
      .ok (((ps.map stripWs).filter (fun s => !s.isEmpty))) := by
  induction ps with
  | nil => rfl
  | cons p rest ih =>
    have hrest := ih (fun q hq => h q (by simp [hq]))
    rcases h p (by simp) with hb | hid
    · simp [parsePortSyms, hb, hrest]
    · by_cases hbl : stripWs p = []
      · simp [parsePortSyms, hbl, hrest]
      · simp [parsePortSyms, List.isEmpty_eq_true, hbl, hid, hrest]

/-- The symbol loop rejects the first malformed piece at the header's
location. -/
theorem parsePortSyms_err {loc : Loc} {pre post : List Chars} {bad : Chars}
    (hpre : ∀ p ∈ pre, stripWs p = [] ∨ pyIsIdentifier (stripWs p) = true)
    (hb1 : stripWs bad ≠ []) (hb2 : pyIsIdentifier (stripWs bad) = false) :
    parsePortSyms loc (pre ++ bad :: post) =
      .error (.badSymbol (stripWs bad) loc) := by
  induction pre with
  | nil =>
    simp [parsePortSyms, List.isEmpty_eq_true, hb1, hb2]
  | cons p rest ih =>
    have hrest := ih (fun q hq => hpre q (by simp [hq]))
    rcases hpre p (by simp) with hb | hid
    · simp [parsePortSyms, hb, hrest]
    · by_cases hbl : stripWs p = []
      · simp [parsePortSyms, hbl, hrest]
      · simp [parsePortSyms, List.isEmpty_eq_true, hbl, hid, hrest]

/-- C6 (amended): within one kind-list of a directive header, repeated
identifiers are not an error — the port parses successfully and the
`OrderedSet` construction silently keeps only the first occurrence —
whereas a malformed non-identifier name is a fatal parse error reported
with the header's location. -/
theorem C6_header_identifiers :
    (∀ (loc : Loc) (port : Chars),
      (∀ p ∈ pySplitOn ',' port,
        stripWs p = [] ∨ pyIsIdentifier (stripWs p) = true) →
      parsePort loc port =
        .ok (odedup (((pySplitOn ',' port).map stripWs).filter
          (fun s => !s.isEmpty)))) ∧
    (∀ (loc : Loc) (port : Chars) (pre post : List Chars) (bad : Chars),
      pySplitOn ',' port = pre ++ bad :: post →
      (∀ p ∈ pre, stripWs p = [] ∨ pyIsIdentifier (stripWs p) = true) →
      stripWs bad ≠ [] → pyIsIdentifier (stripWs bad) = false →
      parsePort loc port = .error (.badSymbol (stripWs bad) loc)) := by
  constructor
  · intro loc port h
    unfold parsePort
    rw [parsePortSyms_ok h]
  · intro loc port pre post bad hsplit hpre hb1 hb2
    unfold parsePort
    rw [hsplit, parsePortSyms_err hpre hb1 hb2]

/-- Witness for the amended C6: the duplicated port `" A, A"` parses to
the single symbol `A`, and the malformed port `" A, 3x"` is rejected at
the header's location. -/
theorem C6_header_identifiers_witness :
    ((∀ p ∈ pySplitOn ',' (cs " A, A"),
        stripWs p = [] ∨ pyIsIdentifier (stripWs p) = true) ∧
      parsePort ("f.c", 3) (cs " A, A") =
        .ok (odedup (((pySplitOn ',' (cs " A, A")).map stripWs).filter
          (fun s => !s.isEmpty)))) ∧
    (pySplitOn ',' (cs " A, 3x") = [cs " A"] ++ cs " 3x" :: [] ∧
      parsePort ("f.c", 3) (cs " A, 3x") =
        .error (.badSymbol (stripWs (cs " 3x")) ("f.c", 3))) :=
  ⟨⟨by decide, C6_header_identifiers.1 ("f.c", 3) (cs " A, A") (by decide)⟩,
    ⟨by decide, C6_header_identifiers.2 ("f.c", 3) (cs " A, 3x") [cs " A"] []
      (cs " 3x") (by decide) (by decide) (by decide) (by decide)⟩⟩

/-- Counterexample to C8 as stated: the overload registry is reset by
`_start` at the beginning of every directive (so a group registered in
the first directive is gone when the second directive starts), and the
dispatcher macro of the group is already materialized into the first
directive's own output file at that directive's `_end` — not once after
all directives finish. -/
theorem C8_overload_counterexample :
    c8Var2.1.overloads = [(cs "PICK", ([cs "N", cs "X"], [cs "N"]))] ∧
    (metaStart (some "b.h")).overloads = [] ∧
    c8End.1.2 = some ("a.h",
      cs "#define PICK(N, X) __MACRO_OVERLOAD__PICK__##N(X)\n#define __MACRO_OVERLOAD__PICK__1(X) A\n#define __MACRO_OVERLOAD__PICK__2(X) B\n") :=
  ⟨rfl, rfl, rfl⟩

/-- C8 (amended): the overload registry is per-directive state — it is
cleared (with the rest of the working state) by `_start` at the start of
every directive; at each directive's `_end`, one dispatcher macro per
group registered during that directive is emitted ahead of the
directive's own buffered text, into that directive's output file. -/
theorem C8_overload_registry :
    (∀ p : Option String,
      (metaStart p).overloads = [] ∧ (metaStart p).output = [] ∧
      (metaStart p).indent = 0 ∧ (metaStart p).mlMode = false) ∧
    c8Var2.2 = none ∧
    c8Var2.1.output =
      cs "#define __MACRO_OVERLOAD__PICK__1(X) A\n#define __MACRO_OVERLOAD__PICK__2(X) B\n" ∧
    c8End.1.2 = some ("a.h",
      cs "#define PICK(N, X) __MACRO_OVERLOAD__PICK__##N(X)\n" ++
        cs "#define __MACRO_OVERLOAD__PICK__1(X) A\n#define __MACRO_OVERLOAD__PICK__2(X) B\n") :=
  ⟨fun _ => ⟨rfl, rfl, rfl, rfl⟩, rfl, rfl, rfl⟩

theorem samePIM_refl (a : MetaState) : samePIM a a := ⟨rfl, rfl, rfl⟩

theorem samePIM_trans {a b c : MetaState} (h1 : samePIM a b) (h2 : samePIM b c) :
    samePIM a c :=
  ⟨h1.1.trans h2.1, h1.2.1.trans h2.2.1, h1.2.2.trans h2.2.2⟩

theorem foldl_emitLine_pim (st : MetaState) (ls : List Chars) :
    samePIM (List.foldl emitLine st ls) st := by
  induction ls generalizing st with
  | nil => exact samePIM_refl st
  | cons l rest ih => exact samePIM_trans (ih (emitLine st l)) ⟨rfl, rfl, rfl⟩

theorem lineStrings_pim (st : MetaState) (ss : List Chars) :
    samePIM (lineStrings st ss).1 st := by
  induction ss generalizing st with
  | nil => exact samePIM_refl st
  | cons s rest ih =>
    unfold lineStrings
    cases hd : deindent true none s with
    | error e => exact samePIM_refl st
    | ok d =>
      exact samePIM_trans (ih _) (foldl_emitLine_pim st (splitlinesNo d))

theorem lineM_pim (st : MetaState) (args : List LineArg) :
    samePIM (lineM st args).1 st := by
  unfold lineM
  cases hn : st.includePath.isNone
  · simp only [Bool.false_eq_true, if_false]
    exact lineStrings_pim st _
  · exact samePIM_refl st

theorem seqE_none {r : MetaState × Option String}
    {f : MetaState → MetaState × Option String}
    (h : (seqE r f).2 = none) :
    r.2 = none ∧ seqE r f = f r.1 := by
  rcases r with ⟨st, e⟩
  cases e with
  | none => exact ⟨rfl, rfl⟩
  | some e0 => simp [seqE] at h

theorem lineM_none_isSome {st : MetaState} {args : List LineArg}
    (h : (lineM st args).2 = none) : st.includePath.isNone = false := by
  cases hn : st.includePath.isNone
  · rfl
  · unfold lineM at h
    rw [hn] at h
    simp at h

theorem samePIM_bump {a b : MetaState} (h : samePIM a b) (iB : Bool) :
    samePIM (if iB then { a with indent := a.indent + 1 } else a)
      (if iB then { b with indent := b.indent + 1 } else b) := by
  cases iB <;> simp_all [samePIM]

theorem enterPre_spec {st1 : MetaState} {header opening : Option Chars} {iB : Bool}
    (h : (enterPre st1 header opening iB).2 = none) :
    samePIM (enterPre st1 header opening iB).1
      (if iB then { st1 with indent := st1.indent + 1 } else st1) := by
  unfold enterPre at h ⊢
  obtain ⟨h1, heq⟩ := seqE_none h
  rw [heq]
  have hpim2 : samePIM (match header with
      | some hd => lineM st1 [.one hd]
      | none => (st1, none)).1 st1 := by
    cases header with
    | some hd => exact lineM_pim st1 _
    | none => exact samePIM_refl st1
  have hpim3 := samePIM_bump hpim2 iB
  cases opening with
  | none => exact hpim3
  | some o =>
    by_cases ho : o.isEmpty
    · simp only [ho, if_true]
      exact hpim3
    · simp only [ho, Bool.false_eq_true, if_false]
      exact samePIM_trans (lineM_pim _ _) hpim3

theorem samePIM_drop {a b : MetaState} (h : samePIM a b) (iB : Bool) :
    samePIM (if iB then { a with indent := a.indent - 1 } else a)
      (if iB then { b with indent := b.indent - 1 } else b) := by
  cases iB <;> simp_all [samePIM]

theorem enterPost_spec {st6 : MetaState} {closing : Option Chars} {iB isDef : Bool}
    (h : (enterPost st6 closing iB isDef).2 = none) :
    (enterPost st6 closing iB isDef).1.indent =
      st6.indent - 1 - (if iB then 1 else 0) ∧
    (enterPost st6 closing iB isDef).1.mlMode =
      (if isDef then false else st6.mlMode) ∧
    (enterPost st6 closing iB isDef).1.includePath = st6.includePath := by
  unfold enterPost at h ⊢
  obtain ⟨h1, heq⟩ := seqE_none h
  simp only [heq]
  have hpim8 : samePIM (match closing with
      | some c => lineM { st6 with indent := st6.indent - 1 } [.one c]
      | none => ({ st6 with indent := st6.indent - 1 }, none)).1
      { st6 with indent := st6.indent - 1 } := by
    cases closing with
    | some c => exact lineM_pim _ _
    | none => exact samePIM_refl _
  generalize hX : (match closing with
      | some c => lineM { st6 with indent := st6.indent - 1 } [.one c]
      | none => ({ st6 with indent := st6.indent - 1 }, none)).1 = st8v at hpim8 ⊢
  obtain ⟨h8i, h8m, h8p⟩ := hpim8
  simp only at h8i h8m h8p
  cases isDef with
  | false =>
    cases iB with
    | false =>
      simp only [Bool.false_eq_true, if_false]
      exact ⟨by rw [h8i]; omega, h8m, h8p⟩
    | true =>
      simp only [if_true]
      refine ⟨?_, h8m, h8p⟩
      show st8v.indent - 1 = st6.indent - 1 - 1
      rw [h8i]
  | true =>
    cases iB with
    | false =>
      simp only [Bool.false_eq_true, if_false, if_true]
      have hp := lineM_pim { st8v with mlMode := false } ([] : List LineArg)
      refine ⟨?_, ?_, ?_⟩
      · rw [hp.1]
        show st8v.indent = st6.indent - 1 - 0
        rw [h8i]
        omega
      · rw [hp.2.1]
      · rw [hp.2.2]
        exact h8p
    | true =>
      simp only [if_true]
      have hp := lineM_pim
        { { st8v with indent := st8v.indent - 1 } with mlMode := false }
        ([] : List LineArg)
      refine ⟨?_, ?_, ?_⟩
      · rw [hp.1]
        show st8v.indent - 1 = st6.indent - 1 - 1
        rw [h8i]
      · rw [hp.2.1]
      · rw [hp.2.2]
        exact h8p

theorem enterPost_infix {st6 : MetaState} {c0 : Char} {ct : Chars} {iB isDef : Bool}
    (h : (enterPost st6 (some (c0 :: ct)) iB isDef).2 = none)
    (hc : isPyWs c0 = false) (hnl : '\n' ∉ c0 :: ct)
    (hlast : isPyWs ((c0 :: ct).getLast (List.cons_ne_nil c0 ct)) = false) :
    charsInfix (c0 :: ct) (enterPost st6 (some (c0 :: ct)) iB isDef).1.output := by
  have hcsp : c0 ≠ ' ' := fun hx => by rw [hx] at hc; cases hc
  have hctab : c0 ≠ '\t' := fun hx => by rw [hx] at hc; cases hc
  unfold enterPost at h ⊢
  obtain ⟨h1, heq⟩ := seqE_none h
  simp only [heq]
  have h1' : (lineM { st6 with indent := st6.indent - 1 } [.one (c0 :: ct)]).2 =
      none := h1
  have hip7 : ({ st6 with indent := st6.indent - 1 } : MetaState).includePath.isSome =
      true := by
    have := lineM_none_isSome h1'
    cases hx : ({ st6 with indent := st6.indent - 1 } : MetaState).includePath with
    | none => rw [hx] at this; cases this
    | some p => simp [hx]
  have hL : lineM { st6 with indent := st6.indent - 1 } [.one (c0 :: ct)] =
      (emitLine { st6 with indent := st6.indent - 1 } (c0 :: ct), none) :=
    lineM_single hip7 (by simp) hnl (lineIndent_cons hcsp) (isBlank_cons_false hc)
      (tabIndent_cons hcsp hctab)
  have hsplit : (c0 :: ct).dropLast ++ [(c0 :: ct).getLast (List.cons_ne_nil c0 ct)] =
      c0 :: ct := List.dropLast_append_getLast _
  have hinf : charsInfix (c0 :: ct)
      (emitLine { st6 with indent := st6.indent - 1 } (c0 :: ct)).output := by
    conv_lhs => rw [← hsplit]
    rw [show emitLine { st6 with indent := st6.indent - 1 } (c0 :: ct) =
      emitLine { st6 with indent := st6.indent - 1 }
        ((c0 :: ct).dropLast ++ [(c0 :: ct).getLast (List.cons_ne_nil c0 ct)]) from by
        rw [hsplit]]
    exact emitLine_charsInfix _ _ _ hlast
  show charsInfix (c0 :: ct)
    ((fun st8 =>
      let st9 := if iB then { st8 with indent := st8.indent - 1 } else st8
      if isDef then lineM { st9 with mlMode := false } [] else (st9, none))
      (lineM { st6 with indent := st6.indent - 1 } [.one (c0 :: ct)]).1).1.output
  rw [hL]
  cases iB with
  | false =>
    cases isDef with
    | false => exact hinf
    | true =>
      have hext := lineM_extends
        { (emitLine { st6 with indent := st6.indent - 1 } (c0 :: ct)) with
          mlMode := false } ([] : List LineArg)
      exact charsInfix_mono hinf hext
  | true =>
    cases isDef with
    | false => exact hinf
    | true =>
      have hext := lineM_extends
        { { (emitLine { st6 with indent := st6.indent - 1 } (c0 :: ct)) with
            indent := (emitLine { st6 with indent := st6.indent - 1 }
              (c0 :: ct)).indent - 1 } with
          mlMode := false } ([] : List LineArg)
      exact charsInfix_mono hinf hext

/-- C5: when the body callback completes normally (and preserves the
indent depth and continuation flag), the scope primitive restores the
indent to its pre-entry value, leaves the continuation flag at its
pre-entry value for non-#define headers (clearing it for #define), and
emits the closing text; because `enter` is a `contextmanager` without
`try`/`finally`, a body exception skips all of this post-yield code. -/
theorem C5_enter_scope (st : MetaState) (header opening closing : Option Chars)
    (indented : Option Bool) (body : MetaState → MetaState × Option String)
    (hbody : ∀ s, (body s).1.indent = s.indent ∧ (body s).1.mlMode = s.mlMode)
    (hsucc : (enter st header opening closing indented body).2 = none) :
    (enter st header opening closing indented body).1.indent = st.indent ∧
    (enter st header opening closing indented body).1.mlMode =
      (if headerIs header [cs "#define"] then false else st.mlMode) ∧
    (∀ c0 ct, resolveClosing header closing = some (c0 :: ct) →
      isPyWs c0 = false → '\n' ∉ c0 :: ct →
      isPyWs ((c0 :: ct).getLast (List.cons_ne_nil c0 ct)) = false →
      charsInfix (c0 :: ct)
        (enter st header opening closing indented body).1.output) := by
  by_cases hip : st.includePath.isNone = true
  · exfalso
    unfold enter at hsucc
    rw [if_pos hip] at hsucc
    simp at hsucc
  · have hipF : st.includePath.isNone = false := Bool.eq_false_iff.mpr hip
    unfold enter at hsucc ⊢
    simp only [hipF, Bool.false_eq_true, if_false] at hsucc ⊢
    obtain ⟨hPre, heq1⟩ := seqE_none hsucc
    simp only [heq1] at hsucc ⊢
    obtain ⟨hBody, heq2⟩ := seqE_none hsucc
    simp only [heq2] at hsucc ⊢
    have hPreS := enterPre_spec hPre
    have hPostS := enterPost_spec hsucc
    have hB := hbody { (enterPre
      (if headerIs header [cs "#define"] then { st with mlMode := true } else st)
      header (resolveOpening header opening)
      (decide (resolveIndented header indented = some true))).1 with
        indent := (enterPre
          (if headerIs header [cs "#define"] then { st with mlMode := true } else st)
          header (resolveOpening header opening)
          (decide (resolveIndented header indented = some true))).1.indent + 1 }
    have hst1i : (if headerIs header [cs "#define"] then
        ({ st with mlMode := true } : MetaState) else st).indent = st.indent := by
      cases hdef : headerIs header [cs "#define"] <;> simp
    have hst1m : (if headerIs header [cs "#define"] then
        ({ st with mlMode := true } : MetaState) else st).mlMode =
        (if headerIs header [cs "#define"] then true else st.mlMode) := by
      cases hdef : headerIs header [cs "#define"] <;> simp
    refine ⟨?_, ?_, ?_⟩
    · rw [hPostS.1, hB.1]
      show (enterPre _ header (resolveOpening header opening) _).1.indent + 1 - 1 -
        (if decide (resolveIndented header indented = some true) = true
          then 1 else 0) = st.indent
      by_cases hiB : resolveIndented header indented = some true
      · have hiB' : decide (resolveIndented header indented = some true) = true := by
          simp [hiB]
        rw [hiB'] at hPreS ⊢
        simp only [if_true] at hPreS ⊢
        rw [hPreS.1]
        show (if headerIs header [cs "#define"] then
          ({ st with mlMode := true } : MetaState) else st).indent + 1 + 1 - 1 - 1 =
          st.indent
        rw [hst1i]
        ring
      · have hiB' : decide (resolveIndented header indented = some true) = false := by
          simp [hiB]
        rw [hiB'] at hPreS ⊢
        simp only [Bool.false_eq_true, if_false] at hPreS ⊢
        rw [hPreS.1, hst1i]
        ring
    · rw [hPostS.2.1]
      have hB2 : (body { (enterPre
          (if headerIs header [cs "#define"] then { st with mlMode := true } else st)
          header (resolveOpening header opening)
          (decide (resolveIndented header indented = some true))).1 with
            indent := (enterPre
              (if headerIs header [cs "#define"] then { st with mlMode := true } else st)
              header (resolveOpening header opening)
              (decide (resolveIndented header indented = some true))).1.indent + 1 }).1.mlMode =
          (enterPre
            (if headerIs header [cs "#define"] then { st with mlMode := true } else st)
            header (resolveOpening header opening)
            (decide (resolveIndented header indented = some true))).1.mlMode := hB.2
      rw [hB2]
      by_cases hdef : headerIs header [cs "#define"] = true
      · simp only [hdef, if_true]
      · have hdefF : headerIs header [cs "#define"] = false := Bool.eq_false_iff.mpr hdef
        simp only [hdefF, Bool.false_eq_true, if_false] at hPreS ⊢
        rw [hPreS.2.1]
        by_cases hiB : resolveIndented header indented = some true
        · simp [hiB]
        · simp [hiB]
    · intro c0 ct hcl hc hnl hlast
      rw [hcl] at hsucc ⊢
      exact enterPost_infix hsucc hc hnl hlast

/-- Counterexample to C5 as stated: when the body callback raises, the
exception propagates from the `yield` point, so the indent depth is not
restored (it stays at 1, not the pre-entry 0) and the closing brace is
never emitted. -/
theorem C5_enter_scope_counterexample :
    c5Run.2 = some "boom" ∧ c5Run.1.indent = 1 ∧
    c5Run.1.output = cs "if (x)\n\x7b\n" ∧ '\x7d' ∉ c5Run.1.output :=
  ⟨rfl, rfl, rfl, by decide⟩

/-- Witness for the amended C5 at a concrete scope. -/
theorem C5_enter_scope_witness :
    ((∀ s, (c5OkBody s).1.indent = s.indent ∧ (c5OkBody s).1.mlMode = s.mlMode) ∧
      (enter (metaStart (some "o.h")) (some (cs "if (x)")) none none none
        c5OkBody).2 = none) ∧
    ((enter (metaStart (some "o.h")) (some (cs "if (x)")) none none none
        c5OkBody).1.indent = (metaStart (some "o.h")).indent ∧
      (enter (metaStart (some "o.h")) (some (cs "if (x)")) none none none
          c5OkBody).1.mlMode =
        (if headerIs (some (cs "if (x)")) [cs "#define"] then false
          else (metaStart (some "o.h")).mlMode) ∧
      (∀ c0 ct, resolveClosing (some (cs "if (x)")) none = some (c0 :: ct) →
        isPyWs c0 = false → '\n' ∉ c0 :: ct →
        isPyWs ((c0 :: ct).getLast (List.cons_ne_nil c0 ct)) = false →
        charsInfix (c0 :: ct)
          (enter (metaStart (some "o.h")) (some (cs "if (x)")) none none none
            c5OkBody).1.output)) :=
  ⟨⟨fun s => ⟨(lineM_pim s _).1, (lineM_pim s _).2.1⟩, rfl⟩,
    C5_enter_scope (metaStart (some "o.h")) (some (cs "if (x)")) none none none
      c5OkBody (fun s => ⟨(lineM_pim s _).1, (lineM_pim s _).2.1⟩) rfl⟩

theorem lineStrings_none_iff {st : MetaState} {ss : List Chars} :
    (lineStrings st ss).2 = none ↔ stringsOk ss = true := by
  induction ss generalizing st with
  | nil => simp [lineStrings, stringsOk]
  | cons s rest ih =>
    unfold lineStrings stringsOk
    cases hd : deindent true none s with
    | error e => simp
    | ok d => exact ih

theorem lineM_none_iff {st : MetaState} {args : List LineArg}
    (hp : st.includePath.isNone = false) :
    (lineM st args).2 = none ↔
      stringsOk ((if args.isEmpty then [.one lineDefaultArg] else args).map
        lineArgStrings).flatten = true := by
  unfold lineM
  rw [hp]
  simp only [Bool.false_eq_true, if_false]
  exact lineStrings_none_iff

theorem deindent_single_indented {k : Nat} {c : Char} {t : Chars}
    (h1 : '\n' ∉ c :: t) (hc : isPyWs c = false) :
    deindent true none (List.replicate k ' ' ++ (c :: t)) = .ok (c :: t) := by
  have hcsp : c ≠ ' ' := fun h => by rw [h] at hc; cases hc
  have hctab : c ≠ '\t' := fun h => by rw [h] at hc; cases hc
  have hA : '\n' ∉ List.replicate k ' ' ++ (c :: t) := by
    intro hmem
    rcases List.mem_append.mp hmem with hm | hm
    · cases List.eq_of_mem_replicate hm
    · exact h1 hm
  have hne : List.replicate k ' ' ++ (c :: t) ≠ [] := by simp
  unfold deindent
  rw [splitlinesKeep_noNl hne hA]
  have hbl : isBlankLine (List.replicate k ' ' ++ (c :: t)) = false := by
    rw [isBlank_pad, isBlank_cons_false hc]
  have htb : tabIndent (List.replicate k ' ' ++ (c :: t)) = false := by
    rw [tabIndent_pad, tabIndent_cons hcsp hctab]
  have hli : lineIndent (List.replicate k ' ' ++ (c :: t)) = k := by
    rw [lineIndent_pad, lineIndent_cons hcsp]
    omega
  simp only [if_true, hbl, Bool.false_eq_true, if_false, List.any_cons, List.any_nil,
    htb, Bool.or_false]
  rw [globalIndent_single hbl, hli]
  simp [pySplitLast_pad]

theorem mem_ljust {x : Char} {w : Nat} {l : Chars} (h : x ∈ ljust w l) :
    x ∈ l ∨ x = ' ' := by
  unfold ljust at h
  rcases List.mem_append.mp h with hm | hm
  · exact Or.inl hm
  · exact Or.inr (List.eq_of_mem_replicate hm)

theorem mem_joinSep {x : Char} {sep : Chars} {ls : List Chars}
    (h : x ∈ joinSep sep ls) : x ∈ sep ∨ ∃ l ∈ ls, x ∈ l := by
  induction ls with
  | nil => cases h
  | cons a rest ih =>
    cases rest with
    | nil =>
      exact Or.inr ⟨a, by simp, h⟩
    | cons b rest2 =>
      simp only [joinSep] at h
      rcases List.mem_append.mp h with hm | hm
      · rcases List.mem_append.mp hm with hm2 | hm2
        · exact Or.inr ⟨a, by simp, hm2⟩
        · exact Or.inl hm2
      · rcases ih hm with hl | ⟨l, hl, hx⟩
        · exact Or.inl hl
        · exact Or.inr ⟨l, by simp [hl], hx⟩

theorem getLast?_dropWhile_concat {p : Char → Bool} {A : Chars} {c : Char}
    (hc : p c = false) : (List.dropWhile p (A ++ [c])).getLast? = some c := by
  induction A with
  | nil => simp [List.dropWhile, hc]
  | cons a rest ih =>
    simp only [List.cons_append, List.dropWhile]
    cases hpa : p a with
    | true => exact ih
    | false =>
      simp only [Bool.false_eq_true, if_false]
      show ((a :: rest) ++ [c]).getLast? = some c
      rw [List.getLast?_concat]

theorem pyLstrip_concat_nonws {A : Chars} {c : Char} (hc : isPyWs c = false) :
    ∃ B, pyLstrip isPyWs (A ++ [c]) = B ++ [c] := by
  induction A with
  | nil => exact ⟨[], by simp [pyLstrip, List.dropWhile, hc]⟩
  | cons a rest ih =>
    unfold pyLstrip at ih ⊢
    simp only [List.cons_append, List.dropWhile]
    cases hpa : isPyWs a with
    | true => exact ih
    | false => exact ⟨a :: rest, by simp⟩

theorem stripWs_concat_nonws {A : Chars} {c : Char} (hc : isPyWs c = false) :
    ∃ B, stripWs (A ++ [c]) = B ++ [c] := by
  obtain ⟨B, hB⟩ := pyLstrip_concat_nonws (A := A) hc
  exact ⟨B, by unfold stripWs; rw [hB]; exact rstripWs_nonws hc⟩

theorem headerEndsEq_concat {A : Chars} :
    headerEndsEq (some (A ++ ['='])) = true := by
  obtain ⟨B, hB⟩ := stripWs_concat_nonws (A := A) (c := '=') (by decide)
  show decide ((stripWs (A ++ ['='])).getLast? = some '=') = true
  rw [hB, List.getLast?_concat]
  simp

theorem seqE_ok {r : MetaState × Option String}
    {f : MetaState → MetaState × Option String} (h : r.2 = none) :
    seqE r f = f r.1 := by
  rcases r with ⟨a, e⟩
  cases e with
  | none => rfl
  | some e0 => exact absurd h (by simp)

theorem stringsOk_default : stringsOk [lineDefaultArg] = true := by decide

theorem lineM_ok_of_stringsOk {st : MetaState} {s : Chars}
    (hp : st.includePath.isNone = false) (h : stringsOk [s] = true) :
    (lineM st [.one s]).2 = none := by
  refine (lineM_none_iff hp).mpr ?_
  simpa using h

theorem enter_ok {st : MetaState} {header opening closing : Option Chars}
    {indented : Option Bool} {body : MetaState → MetaState × Option String}
    (hp : st.includePath.isNone = false)
    (hh : ∀ h0, header = some h0 → stringsOk [h0] = true)
    (ho : ∀ o, resolveOpening header opening = some o → o.isEmpty = false →
      stringsOk [o] = true)
    (hcl : ∀ c, resolveClosing header closing = some c → stringsOk [c] = true)
    (hb : ∀ s : MetaState, s.includePath = st.includePath →
      (body s).2 = none ∧ (body s).1.includePath = st.includePath) :
    (enter st header opening closing indented body).2 = none := by
  have hnone : ∀ s : MetaState, s.includePath = st.includePath →
      s.includePath.isNone = false := by
    intro s hs
    rw [hs]
    exact hp
  unfold enter
  rw [hp]
  simp only [Bool.false_eq_true, if_false]
  have hst1p : (if headerIs header [cs "#define"] then
      ({ st with mlMode := true } : MetaState) else st).includePath =
      st.includePath := by
    cases headerIs header [cs "#define"] <;> simp
  -- the pre-yield stage succeeds and preserves the include path
  have hpre : ∀ s1 : MetaState, s1.includePath = st.includePath →
      (enterPre s1 header (resolveOpening header opening)
        (decide (resolveIndented header indented = some true))).2 = none ∧
      (enterPre s1 header (resolveOpening header opening)
        (decide (resolveIndented header indented = some true))).1.includePath =
        st.includePath := by
    intro s1 hs1
    unfold enterPre
    have hS1 : (match header with
        | some h0 => lineM s1 [.one h0]
        | none => (s1, none)).2 = none ∧
        (match header with
        | some h0 => lineM s1 [.one h0]
        | none => (s1, none)).1.includePath = st.includePath := by
      cases hhd : header with
      | none => exact ⟨rfl, hs1⟩
      | some h0 =>
        exact ⟨lineM_ok_of_stringsOk (hnone s1 hs1) (hh h0 hhd),
          (lineM_pim s1 _).2.2.trans hs1⟩
    rw [seqE_ok hS1.1]
    have hst3p : (if decide (resolveIndented header indented = some true) then
        { (match header with
          | some h0 => lineM s1 [.one h0]
          | none => (s1, none)).1 with
            indent := (match header with
              | some h0 => lineM s1 [.one h0]
              | none => (s1, none)).1.indent + 1 }
        else (match header with
          | some h0 => lineM s1 [.one h0]
          | none => (s1, none)).1).includePath = st.includePath := by
      cases decide (resolveIndented header indented = some true) <;>
        simpa using hS1.2
    cases hop : resolveOpening header opening with
    | none => exact ⟨rfl, hst3p⟩
    | some o =>
      by_cases hoe : o.isEmpty
      · simp only [hoe, if_true]
        exact ⟨trivial, hst3p⟩
      · simp only [hoe, Bool.false_eq_true, if_false]
        refine ⟨lineM_ok_of_stringsOk ?_ (ho o hop (Bool.eq_false_iff.mpr hoe)), ?_⟩
        · exact hnone _ hst3p
        · exact (lineM_pim _ _).2.2.trans hst3p
  -- the post-yield stage succeeds given an include-path-preserving state
  have hpost : ∀ s6 : MetaState, s6.includePath = st.includePath →
      (enterPost s6 (resolveClosing header closing)
        (decide (resolveIndented header indented = some true))
        (headerIs header [cs "#define"])).2 = none := by
    intro s6 hs6
    unfold enterPost
    have hS8 : (match resolveClosing header closing with
        | some c => lineM { s6 with indent := s6.indent - 1 } [.one c]
        | none => ({ s6 with indent := s6.indent - 1 }, none)).2 = none ∧
        (match resolveClosing header closing with
        | some c => lineM { s6 with indent := s6.indent - 1 } [.one c]
        | none => ({ s6 with indent := s6.indent - 1 }, none)).1.includePath =
          st.includePath := by
      cases hcc : resolveClosing header closing with
      | none => exact ⟨rfl, hs6⟩
      | some c =>
        refine ⟨lineM_ok_of_stringsOk (hnone _ hs6) (hcl c hcc), ?_⟩
        exact (lineM_pim _ _).2.2.trans hs6
    rw [seqE_ok hS8.1]
    cases headerIs header [cs "#define"] with
    | false => rfl
    | true =>
      apply lineM_ok_of_stringsOk
      · refine hnone _ ?_
        cases decide (resolveIndented header indented = some true) <;>
          simpa using hS8.2
      · exact stringsOk_default
  have hpre1 := hpre _ hst1p
  simp only [seqE_ok hpre1.1]
  have hb1 := hb { (enterPre
      (if headerIs header [cs "#define"] then { st with mlMode := true } else st)
      header (resolveOpening header opening)
      (decide (resolveIndented header indented = some true))).1 with
    indent := (enterPre
      (if headerIs header [cs "#define"] then { st with mlMode := true } else st)
      header (resolveOpening header opening)
      (decide (resolveIndented header indented = some true))).1.indent + 1 }
    hpre1.2
  simp only [seqE_ok hb1.1]
  exact hpost _ hb1.2

theorem stringsOk_single {s d : Chars} (h : deindent true none s = .ok d) :
    stringsOk [s] = true := by
  simp only [stringsOk]
  rw [h]

theorem stringsOk_nonws_head {c : Char} {t : Chars} (hc : isPyWs c = false)
    (hn : '\n' ∉ c :: t) : stringsOk [c :: t] = true := by
  have hcsp : c ≠ ' ' := fun h => by rw [h] at hc; cases hc
  have hctab : c ≠ '\t' := fun h => by rw [h] at hc; cases hc
  exact stringsOk_single (deindent_single (by simp) hn
    (lineIndent_cons hcsp) (isBlank_cons_false hc) (tabIndent_cons hcsp hctab))

theorem stringsOk_padded {k : Nat} {c : Char} {t : Chars} (hc : isPyWs c = false)
    (hn : '\n' ∉ c :: t) : stringsOk [List.replicate k ' ' ++ (c :: t)] = true :=
  stringsOk_single (deindent_single_indented hn hc)

theorem scopeOpening_ok {h : Option Chars} {o : Chars}
    (ho : (scopeSuggestion h).1 = some o) : stringsOk [o] = true := by
  unfold scopeSuggestion at ho
  split_ifs at ho <;> simp at ho <;> subst ho <;> decide

theorem scopeClosing_ok {h : Option Chars} {c : Chars}
    (hc : (scopeSuggestion h).2.1 = some c) : stringsOk [c] = true := by
  unfold scopeSuggestion at hc
  split_ifs at hc <;> simp at hc <;> subst hc <;> decide

theorem foldl_seqE_ok {α : Type} {P : Option String}
    (g : MetaState → α → MetaState × Option String) :
    ∀ (l : List α) (r : MetaState × Option String),
      (∀ (s2 : MetaState) (a : α), a ∈ l → s2.includePath = P →
        (g s2 a).2 = none ∧ (g s2 a).1.includePath = P) →
      r.2 = none → r.1.includePath = P →
      ((l.foldl (fun acc x => seqE acc (fun s2 => g s2 x)) r).2 = none ∧
       (l.foldl (fun acc x => seqE acc (fun s2 => g s2 x)) r).1.includePath = P)
  | [], r, _, h2, h1 => ⟨h2, h1⟩
  | a :: rest, r, hg, h2, h1 => by
    simp only [List.foldl_cons]
    rw [seqE_ok h2]
    have ha := hg r.1 a (by simp) h1
    exact foldl_seqE_ok g rest (g r.1 a)
      (fun s2 b hb hp2 => hg s2 b (List.mem_cons_of_mem a hb) hp2) ha.1 ha.2

theorem justifyRow_cons (cells : List (List Chars)) (a : Chars) (l : List Chars) :
    justifyRow cells (a :: l) = ljust (columnWidth cells 0) a ::
      (List.range l.length).map
        (fun j => ljust (columnWidth cells (j + 1))
          (((a :: l).get? (j + 1)).toList.flatten)) := by
  unfold justifyRow
  rw [show (a :: l).length = l.length + 1 from rfl, List.range_succ_eq_map,
    List.map_cons, List.map_map]
  congr 1
  show ljust (columnWidth cells 0) (a ++ []) = ljust (columnWidth cells 0) a
  rw [List.append_nil]

theorem justifyRow_not_nl {cells : List (List Chars)} {r : List Chars}
    (hr : ∀ cell ∈ r, '\n' ∉ cell) :
    ∀ jf ∈ justifyRow cells r, '\n' ∉ jf := by
  intro jf hjf hx
  unfold justifyRow at hjf
  rcases List.mem_map.mp hjf with ⟨j, hjmem, rfl⟩
  rcases mem_ljust hx with hx2 | hx2
  · cases hg2 : r.get? j with
    | none => rw [hg2] at hx2; simp at hx2
    | some cell =>
      rw [hg2] at hx2
      simp at hx2
      exact hr cell (List.get?_mem hg2) hx2
  · exact absurd hx2 (by decide)

theorem rowLine_ok {w : Nat} {idx : Option PyObj} {jfields : List Chars}
    (hIdx : '\n' ∉ lutIndexCell idx)
    (h2 : ∀ jf ∈ jfields, '\n' ∉ jf) :
    stringsOk [ljust w (lutIndexCell idx) ++ cs "\x7b " ++
      joinSep (cs ", ") jfields ++ cs " \x7d,"] = true := by
  have hrest : '\n' ∉ cs "\x7b " ++ joinSep (cs ", ") jfields ++ cs " \x7d," := by
    intro hx
    rcases List.mem_append.mp hx with hx | hx
    · rcases List.mem_append.mp hx with hx | hx
      · exact absurd hx (by decide)
      · rcases mem_joinSep hx with hx | ⟨l2, hl2, hx2⟩
        · exact absurd hx (by decide)
        · exact h2 l2 hl2 hx2
    · exact absurd hx (by decide)
  have hnI : '\n' ∉ ljust w (lutIndexCell idx) := by
    intro hx
    rcases mem_ljust hx with hx | hx
    · exact hIdx hx
    · exact absurd hx (by decide)
  have hL : ljust w (lutIndexCell idx) ++ cs "\x7b " ++
      joinSep (cs ", ") jfields ++ cs " \x7d," =
      ljust w (lutIndexCell idx) ++ (cs "\x7b " ++
      joinSep (cs ", ") jfields ++ cs " \x7d,") := by
    simp [List.append_assoc]
  rw [hL]
  have hnL : '\n' ∉ ljust w (lutIndexCell idx) ++ (cs "\x7b " ++
      joinSep (cs ", ") jfields ++ cs " \x7d,") := by
    intro hx
    rcases List.mem_append.mp hx with hx | hx
    · exact hnI hx
    · exact hrest hx
  cases idx with
  | some i => exact stringsOk_nonws_head (c := '[') (by decide) hnL
  | none => exact stringsOk_padded (c := '\x7b') (by decide) hrest

/-- C7: contrary to the claim, `Meta.lut` performs no duplicate-index or
duplicate-field-name validation at all: whenever the rows parse
structurally (and the rendered pieces are single-line), the primitive
succeeds, duplicates included. -/
theorem C7_lut_accepts_duplicates
    (st : MetaState) (tableType : Option Chars) (tableName : Chars)
    (tableRows : List (List PyObj)) (parsed : List (Option PyObj × List LutMember))
    (hp : st.includePath.isNone = false)
    (hparse : lutParseRows tableType.isSome tableRows = .ok parsed)
    (hty : '\n' ∉ lutTableType tableType parsed)
    (hname : '\n' ∉ tableName)
    (hcells : ∀ p ∈ parsed, '\n' ∉ lutIndexCell p.1 ∧ ∀ m ∈ p.2, '\n' ∉ lutFieldCell m) :
    (lut st tableType tableName tableRows).2 = none := by
  unfold lut
  rw [hp]
  simp only [Bool.false_eq_true, if_false]
  rw [hparse]
  refine enter_ok hp ?_ ?_ ?_ ?_
  · intro h0 he
    injection he with he2
    subst he2
    have hn : '\n' ∉ cs "static const " ++ lutTableType tableType parsed ++ [' '] ++
        tableName ++ cs "[] =" := by
      intro hx
      rcases List.mem_append.mp hx with hx | hx
      · rcases List.mem_append.mp hx with hx | hx
        · rcases List.mem_append.mp hx with hx | hx
          · rcases List.mem_append.mp hx with hx | hx
            · exact absurd hx (by decide)
            · exact hty hx
          · exact absurd hx (by decide)
        · exact hname hx
      · exact absurd hx (by decide)
    exact stringsOk_nonws_head (c := 's') (by decide) hn
  · intro o ho1 _
    exact scopeOpening_ok ho1
  · intro c hc1
    exact scopeClosing_ok hc1
  · intro s hs
    refine foldl_seqE_ok _ _ (s, none) ?_ rfl hs
    intro s2 rrow hmem hpath
    rcases List.mem_map.mp hmem with ⟨p, hpMem, rfl⟩
    obtain ⟨hIdxNl, hFieldNl⟩ := hcells p hpMem
    have hr : ∀ cell ∈ lutIndexCell p.1 :: List.map lutFieldCell p.2, '\n' ∉ cell := by
      intro cell hcell
      rcases List.mem_cons.mp hcell with rfl | hcell
      · exact hIdxNl
      · rcases List.mem_map.mp hcell with ⟨m, hm, rfl⟩
        exact hFieldNl m hm
    have hjr := justifyRow_cons
      (parsed.map fun q => lutIndexCell q.1 :: List.map lutFieldCell q.2)
      (lutIndexCell p.1) (List.map lutFieldCell p.2)
    rw [hjr]
    refine ⟨lineM_ok_of_stringsOk (by rw [hpath]; exact hp)
      (rowLine_ok hIdxNl ?_), (lineM_pim _ _).2.2.trans hpath⟩
    intro jf hjf
    exact justifyRow_not_nl hr jf (by rw [hjr]; exact List.mem_cons_of_mem _ hjf)

/-- C7 counterexample: a table whose two rows carry the same explicit
index `[0]`, and a table one of whose rows has two members both named
`a`, are both accepted without any error; the duplicate initializers are
emitted verbatim. -/
theorem C7_lut_counterexample :
    (lut (metaStart (some "o.h")) none (cs "T")
        [[.val (.int 0), .tup [.val (.str (cs "x")), .val (.int 1)]],
         [.val (.int 0), .tup [.val (.str (cs "x")), .val (.int 2)]]]).2 = none ∧
    (lut (metaStart (some "o.h")) none (cs "T")
        [[.val (.int 0), .tup [.val (.str (cs "x")), .val (.int 1)]],
         [.val (.int 0), .tup [.val (.str (cs "x")), .val (.int 2)]]]).1.output =
      cs "static const struct \x7b typeof(1) x; \x7d T[] =\n    \x7b\n        [0] = \x7b .x = 1 \x7d,\n        [0] = \x7b .x = 2 \x7d,\n    \x7d;\n" ∧
    (lut (metaStart (some "o.h")) none (cs "U")
        [[.tup [.val (.str (cs "a")), .val (.int 1)],
          .tup [.val (.str (cs "a")), .val (.int 2)]]]).2 = none ∧
    (lut (metaStart (some "o.h")) none (cs "U")
        [[.tup [.val (.str (cs "a")), .val (.int 1)],
          .tup [.val (.str (cs "a")), .val (.int 2)]]]).1.output =
      cs "static const struct \x7b typeof(1) a; typeof(2) a; \x7d U[] =\n    \x7b\n        \x7b .a = 1, .a = 2 \x7d,\n    \x7d;\n" :=
  ⟨rfl, rfl, rfl, rfl⟩

/-- C7 witness: the hypotheses of the amended theorem hold on a concrete
one-row table, and the primitive indeed succeeds there. -/
theorem C7_lut_accepts_duplicates_witness :
    lutParseRows (Option.isSome (none : Option Chars))
        [[PyObj.val (.int 0), PyObj.tup [.val (.str (cs "x")), .val (.int 1)]]] =
      Except.ok [(some (PyObj.val (.int 0)),
        [⟨none, PyObj.val (.str (cs "x")), cs "1"⟩])] ∧
    (lut (metaStart (some "w.h")) none (cs "W")
        [[PyObj.val (.int 0), PyObj.tup [.val (.str (cs "x")), .val (.int 1)]]]).2 =
      none :=
  ⟨rfl, C7_lut_accepts_duplicates (metaStart (some "w.h")) none (cs "W")
    [[PyObj.val (.int 0), PyObj.tup [.val (.str (cs "x")), .val (.int 1)]]]
    [(some (PyObj.val (.int 0)), [⟨none, PyObj.val (.str (cs "x")), cs "1"⟩])]
    rfl rfl (by decide) (by decide) (by decide)⟩

theorem linesWF_cons {l : Chars} {L : List Chars}
    (hmid : ∃ b, l = b ++ ['\n'] ∧ '\n' ∉ b) (h : linesWF L) : linesWF (l :: L) := by
  cases L with
  | nil =>
    refine ⟨?_, Or.inl hmid⟩
    rcases hmid with ⟨b, rfl, _⟩
    simp
  | cons x xs => exact ⟨hmid, h⟩

theorem linesWF_splitlines (s : Chars) : linesWF (splitlinesKeep s) := by
  induction s with
  | nil => exact trivial
  | cons c rest ih =>
    simp only [splitlinesKeep]
    by_cases hc : c = '\n'
    · rw [if_pos hc]
      exact linesWF_cons ⟨[], rfl, by simp⟩ ih
    · rw [if_neg hc]
      cases hsp : splitlinesKeep rest with
      | nil =>
        refine ⟨by simp, Or.inr ?_⟩
        intro hx
        rcases List.mem_singleton.mp hx with h1
        exact hc h1.symm
      | cons l ls =>
        rw [hsp] at ih
        cases ls with
        | nil =>
          obtain ⟨hne, hsh⟩ := ih
          refine ⟨by simp, ?_⟩
          rcases hsh with ⟨b, rfl, hb⟩ | hnl
          · refine Or.inl ⟨c :: b, rfl, ?_⟩
            intro hx
            rcases List.mem_cons.mp hx with h1 | h1
            · exact hc h1.symm
            · exact hb h1
          · refine Or.inr ?_
            intro hx
            rcases List.mem_cons.mp hx with h1 | h1
            · exact hc h1.symm
            · exact hnl h1
        | cons y ys =>
          obtain ⟨⟨b, hb1, hb2⟩, hrest⟩ := ih
          subst hb1
          refine ⟨⟨c :: b, rfl, ?_⟩, hrest⟩
          intro hx
          rcases List.mem_cons.mp hx with h1 | h1
          · exact hc h1.symm
          · exact hb2 h1

theorem linesWF_flatten {L : List Chars} (h : linesWF L) :
    splitlinesKeep L.flatten = L := by
  induction L with
  | nil => rfl
  | cons l rest ih =>
    cases rest with
    | nil =>
      obtain ⟨hne, hsh⟩ := h
      simp only [List.flatten_cons, List.flatten_nil, List.append_nil]
      rcases hsh with ⟨b, rfl, hb⟩ | hnl
      · rw [show b ++ ['\n'] = b ++ '\n' :: ([] : Chars) from rfl,
          splitlinesKeep_append_nl hb]
        rfl
      · exact splitlinesKeep_noNl hne hnl
    | cons l2 rest2 =>
      obtain ⟨⟨b, rfl, hb⟩, hrest⟩ := h
      simp only [List.flatten_cons]
      rw [show (b ++ ['\n']) ++ (l2 ++ rest2.flatten) =
        b ++ '\n' :: (l2 ++ rest2.flatten) by simp]
      rw [splitlinesKeep_append_nl hb]
      exact congrArg (List.cons (b ++ ['\n'])) (ih hrest)

theorem linesWF_pad (k : Nat) {L : List Chars} (h : linesWF L) :
    linesWF (L.map (fun l => List.replicate k ' ' ++ l)) := by
  induction L with
  | nil => exact trivial
  | cons l rest ih =>
    cases rest with
    | nil =>
      obtain ⟨hne, hsh⟩ := h
      refine ⟨?_, ?_⟩
      · intro hx
        exact hne (List.append_eq_nil.mp hx).2
      · rcases hsh with ⟨b, rfl, hb⟩ | hnl
        · refine Or.inl ⟨List.replicate k ' ' ++ b, by simp [List.append_assoc], ?_⟩
          intro hx
          rcases List.mem_append.mp hx with h1 | h1
          · exact absurd (List.eq_of_mem_replicate h1) (by decide)
          · exact hb h1
        · refine Or.inr ?_
          intro hx
          rcases List.mem_append.mp hx with h1 | h1
          · exact absurd (List.eq_of_mem_replicate h1) (by decide)
          · exact hnl h1
    | cons l2 rest2 =>
      obtain ⟨⟨b, rfl, hb⟩, hrest⟩ := h
      refine ⟨⟨List.replicate k ' ' ++ b, by simp [List.append_assoc], ?_⟩, ih hrest⟩
      intro hx
      rcases List.mem_append.mp hx with h1 | h1
      · exact absurd (List.eq_of_mem_replicate h1) (by decide)
      · exact hb h1

theorem splitlinesKeep_padLines (k : Nat) (s : Chars) :
    splitlinesKeep (padLines k s) =
      (splitlinesKeep s).map (fun l => List.replicate k ' ' ++ l) :=
  linesWF_flatten (linesWF_pad k (linesWF_splitlines s))

theorem pySplitLast_pad_general (m k : Nat) (l : Chars) :
    pySplitLast (m + k) (List.replicate k ' ' ++ l) = pySplitLast m l := by
  induction k with
  | zero => simp
  | succ k2 ih =>
    rw [List.replicate_succ, List.cons_append]
    have hfs : afterFirstSpace (' ' :: (List.replicate k2 ' ' ++ l)) =
        some (List.replicate k2 ' ' ++ l) := by
      simp [afterFirstSpace]
    rw [show m + (k2 + 1) = (m + k2) + 1 from rfl]
    simp only [pySplitLast, hfs]
    exact ih

theorem globalIndent_eq (comment : Option Chars) (L : List Chars) :
    globalIndent comment L = L.foldl (giStep comment) none := rfl

theorem giStep_pad (k : Nat) (acc : Option Nat) (l : Chars) :
    giStep none (acc.map (fun g => k + g)) (List.replicate k ' ' ++ l) =
      (giStep none acc l).map (fun g => k + g) := by
  cases hb : isBlankLine l with
  | true => simp [giStep, isBlank_pad, hb]
  | false =>
    cases acc with
    | none => simp [giStep, isBlank_pad, lineIndent_pad, hb]
    | some a =>
      simp [giStep, isBlank_pad, lineIndent_pad, hb]
      omega

theorem foldl_giStep_pad (k : Nat) :
    ∀ (L : List Chars) (acc : Option Nat),
      (L.map (fun l => List.replicate k ' ' ++ l)).foldl (giStep none)
          (acc.map (fun g => k + g)) =
        (L.foldl (giStep none) acc).map (fun g => k + g)
  | [], acc => rfl
  | l :: rest, acc => by
    simp only [List.map_cons, List.foldl_cons]
    rw [giStep_pad]
    exact foldl_giStep_pad k rest (giStep none acc l)

theorem globalIndent_pad {k : Nat} (L : List Chars) :
    globalIndent none (L.map (fun l => List.replicate k ' ' ++ l)) =
      (globalIndent none L).map (fun g => k + g) := by
  rw [globalIndent_eq, globalIndent_eq]
  exact foldl_giStep_pad k L none

theorem globalIndent_isSome {L : List Chars}
    (h : L.any (fun l => !isBlankLine l) = true) :
    (globalIndent none L).isSome = true := by
  rw [globalIndent_eq]
  suffices haux : ∀ (M : List Chars) (acc : Option Nat),
      acc.isSome = true ∨ M.any (fun l => !isBlankLine l) = true →
      (M.foldl (giStep none) acc).isSome = true by
    exact haux L none (Or.inr h)
  intro M
  induction M with
  | nil =>
    intro acc hd
    rcases hd with hd | hd
    · exact hd
    · simp at hd
  | cons l rest ih =>
    intro acc hd
    simp only [List.foldl_cons]
    apply ih
    cases hb : isBlankLine l with
    | false =>
      left
      unfold giStep
      simp only [hb, Bool.not_false, Bool.and_self, if_true]
      cases acc <;> simp
    | true =>
      rcases hd with hd | hd
      · left
        unfold giStep
        simp only [hb, Bool.not_true, Bool.and_false, Bool.false_eq_true, if_false]
        exact hd
      · right
        simp only [List.any_cons, hb, Bool.not_true, Bool.false_or] at hd
        exact hd

theorem any_tabIndent_pad (k : Nat) (L : List Chars) :
    (L.map (fun l => List.replicate k ' ' ++ l)).any tabIndent = L.any tabIndent := by
  rw [List.any_map]
  congr 1
  funext l
  exact tabIndent_pad k l

theorem deindent_tail_pad (k : Nat) (L : List Chars)
    (H : L.any (fun l => !isBlankLine l) = true) :
    (if (L.map (fun l => List.replicate k ' ' ++ l)).any tabIndent then
      (Except.error "Only spaces for indentation is allowed." : Except String Chars)
    else
      Except.ok (match globalIndent none (L.map (fun l => List.replicate k ' ' ++ l)) with
        | none => L.map (fun l => List.replicate k ' ' ++ l)
        | some g => (L.map (fun l => List.replicate k ' ' ++ l)).map (pySplitLast g)).flatten) =
    (if L.any tabIndent then
      (Except.error "Only spaces for indentation is allowed." : Except String Chars)
    else
      Except.ok (match globalIndent none L with
        | none => L
        | some g => L.map (pySplitLast g)).flatten) := by
  rw [any_tabIndent_pad]
  cases ht : L.any tabIndent with
  | true => rfl
  | false =>
    simp only [Bool.false_eq_true, if_false]
    rw [globalIndent_pad]
    obtain ⟨g, hg⟩ := Option.isSome_iff_exists.mp (globalIndent_isSome H)
    rw [hg]
    simp only [Option.map_some']
    show Except.ok
        (((L.map (fun l => List.replicate k ' ' ++ l)).map (pySplitLast (k + g))).flatten) =
      Except.ok ((L.map (pySplitLast g)).flatten)
    have hmap : (L.map (fun l => List.replicate k ' ' ++ l)).map (pySplitLast (k + g)) =
        L.map (pySplitLast g) := by
      rw [List.map_map]
      apply List.map_congr_left
      intro l _
      show pySplitLast (k + g) (List.replicate k ' ' ++ l) = pySplitLast g l
      rw [Nat.add_comm]
      exact pySplitLast_pad_general g k l
    rw [hmap]

theorem deindent_pad (k : Nat) (s : Chars)
    (H : (splitlinesKeep s).any (fun l => !isBlankLine l) = true) :
    deindent true none (padLines k s) = deindent true none s := by
  unfold deindent
  rw [splitlinesKeep_padLines]
  cases hsp : splitlinesKeep s with
  | nil => simp [hsp] at H
  | cons l rest =>
    rw [hsp] at H
    simp only [List.map_cons, if_true]
    rw [isBlank_pad]
    cases hb : isBlankLine l with
    | true =>
      simp only [if_true]
      have Hr : rest.any (fun l => !isBlankLine l) = true := by
        simp only [List.any_cons, hb, Bool.not_true, Bool.false_or] at H
        exact H
      exact deindent_tail_pad k rest Hr
    | false =>
      simp only [Bool.false_eq_true, if_false]
      exact deindent_tail_pad k (l :: rest) H

/-- C9: the spec's dedent-idempotence claim holds only for fragments with
at least one non-blank line: for such a fragment, uniformly adding `k`
leading spaces to every line leaves the output of `Meta.line` unchanged. -/
theorem C9_line_pad_invariant (st : MetaState) (k : Nat) (s : Chars)
    (H : (splitlinesKeep s).any (fun l => !isBlankLine l) = true) :
    lineM st [.one (padLines k s)] = lineM st [.one s] := by
  unfold lineM
  cases hpath : st.includePath.isNone with
  | true => rfl
  | false =>
    simp only [Bool.false_eq_true, if_false]
    show lineStrings st [padLines k s] = lineStrings st [s]
    unfold lineStrings
    rw [deindent_pad k s H]

theorem C9_line_pad_counterexample :
    (splitlinesKeep (cs "\n\n")).any (fun l => !isBlankLine l) = false ∧
    (lineM c9State [.one (padLines 2 (cs "\n\n"))]).1.output = cs "  \\\n" ∧
    (lineM c9State [.one (cs "\n\n")]).1.output = cs "\\\n" :=
  ⟨by decide, rfl, rfl⟩

/-- C9 witness: a concrete two-line fragment with non-blank lines, padded
by two spaces, emits identically. -/
theorem C9_line_pad_invariant_witness :
    (splitlinesKeep (cs "int x;\n  int y;\n")).any (fun l => !isBlankLine l) = true ∧
    lineM (metaStart (some "a.h")) [.one (padLines 2 (cs "int x;\n  int y;\n"))] =
      lineM (metaStart (some "a.h")) [.one (cs "int x;\n  int y;\n")] :=
  ⟨by decide, C9_line_pad_invariant (metaStart (some "a.h")) 2
    (cs "int x;\n  int y;\n") (by decide)⟩

theorem pickNext_satisfied :
    ∀ {pool : List Directive} {avail : List String} {d : Directive}
      {rest : List Directive},
      pickNext pool avail = some (d, rest) → satisfied d avail = true := by
  intro pool
  induction pool with
  | nil => intro avail d rest h; cases h
  | cons d0 r ih =>
    intro avail d rest h
    simp only [pickNext] at h
    by_cases hs : satisfied d0 avail
    · rw [if_pos hs] at h
      injection h with h2
      obtain ⟨h3, h4⟩ := (Prod.mk.injEq _ _ _ _).mp h2
      rw [← h3]
      exact hs
    · rw [if_neg hs] at h
      cases hpk : pickNext r avail with
      | none => rw [hpk] at h; cases h
      | some pr =>
        rw [hpk] at h
        injection h with h2
        have h3 := (Prod.mk.injEq _ _ _ _).mp h2
        rw [← h3.1]
        exact ih hpk

theorem pickNext_perm :
    ∀ {pool : List Directive} {avail : List String} {d : Directive}
      {rest : List Directive},
      pickNext pool avail = some (d, rest) → pool.Perm (d :: rest) := by
  intro pool
  induction pool with
  | nil => intro avail d rest h; cases h
  | cons d0 r ih =>
    intro avail d rest h
    simp only [pickNext] at h
    by_cases hs : satisfied d0 avail
    · rw [if_pos hs] at h
      injection h with h2
      have h3 := (Prod.mk.injEq _ _ _ _).mp h2
      rw [← h3.1, ← h3.2]
    · rw [if_neg hs] at h
      cases hpk : pickNext r avail with
      | none => rw [hpk] at h; cases h
      | some pr =>
        rw [hpk] at h
        injection h with h2
        have h3 := (Prod.mk.injEq _ _ _ _).mp h2
        rw [← h3.1, ← h3.2]
        exact (List.Perm.cons d0 (ih hpk)).trans (List.Perm.swap pr.1 d0 pr.2)

theorem scheduleAux_prefix :
    ∀ (fuel : Nat) (pool : List Directive) (avail : List String)
      (acc out : List Directive),
      scheduleAux fuel pool avail acc = .ok out → ∃ t, out = acc ++ t
  | fuel, [], _, acc, out, h => by
    cases fuel <;> simp only [scheduleAux, Except.ok.injEq] at h <;>
      exact ⟨[], by rw [← h, List.append_nil]⟩
  | 0, d0 :: rest0, _, acc, out, h => by cases h
  | fuel + 1, d0 :: rest0, avail, acc, out, h => by
    simp only [scheduleAux] at h
    cases hpk : pickNext (d0 :: rest0) avail with
    | none => rw [hpk] at h; cases h
    | some pr =>
      rw [hpk] at h
      obtain ⟨t, ht⟩ := scheduleAux_prefix fuel pr.2
        (odedup (avail ++ pr.1.exports)) (acc ++ [pr.1]) out h
      exact ⟨pr.1 :: t, by rw [ht, List.append_assoc]; rfl⟩

theorem scheduleAux_perm :
    ∀ (fuel : Nat) (pool : List Directive) (avail : List String)
      (acc out : List Directive),
      scheduleAux fuel pool avail acc = .ok out → out.Perm (acc ++ pool)
  | fuel, [], _, acc, out, h => by
    cases fuel <;> simp only [scheduleAux, Except.ok.injEq] at h <;>
      rw [← h, List.append_nil]
  | 0, d0 :: rest0, _, acc, out, h => by cases h
  | fuel + 1, d0 :: rest0, avail, acc, out, h => by
    simp only [scheduleAux] at h
    cases hpk : pickNext (d0 :: rest0) avail with
    | none => rw [hpk] at h; cases h
    | some pr =>
      rw [hpk] at h
      have ih := scheduleAux_perm fuel pr.2
        (odedup (avail ++ pr.1.exports)) (acc ++ [pr.1]) out h
      have h1 : (acc ++ [pr.1]) ++ pr.2 = acc ++ pr.1 :: pr.2 := by
        rw [List.append_assoc]; rfl
      rw [h1] at ih
      exact ih.trans (List.Perm.append_left acc (pickNext_perm hpk).symm)

theorem schedule_perm {ds out : List Directive} (h : schedule ds = .ok out) :
    out.Perm ds :=
  scheduleAux_perm ds.length ds [] [] out h

theorem scheduleAux_before :
    ∀ (fuel : Nat) (pool : List Directive) (avail : List String)
      (acc out : List Directive),
      scheduleAux fuel pool avail acc = .ok out →
      (∀ s ∈ avail, ∃ d ∈ acc, s ∈ d.exports) →
      ∀ (i : Nat) (B : Directive), out[i]? = some B → acc.length ≤ i →
        ∀ sym ∈ B.imports, ∃ j, j < i ∧ ∃ dA, out[j]? = some dA ∧ sym ∈ dA.exports
  | fuel, [], _, acc, out, h, hEXP, i, B, hiB, hle, sym, hsym => by
    cases fuel <;> simp only [scheduleAux, Except.ok.injEq] at h <;>
      (rw [← h] at hiB; rw [List.getElem?_eq_none hle] at hiB; cases hiB)
  | 0, d0 :: rest0, _, acc, out, h, hEXP, i, B, hiB, hle, sym, hsym => by cases h
  | fuel + 1, d0 :: rest0, avail, acc, out, h, hEXP, i, B, hiB, hle, sym, hsym => by
    simp only [scheduleAux] at h
    cases hpk : pickNext (d0 :: rest0) avail with
    | none => rw [hpk] at h; cases h
    | some pr =>
      rw [hpk] at h
      have hEXP2 : ∀ s ∈ odedup (avail ++ pr.1.exports),
          ∃ d ∈ acc ++ [pr.1], s ∈ d.exports := by
        intro s hs
        rcases List.mem_append.mp (mem_odedup.mp hs) with hs2 | hs2
        · obtain ⟨d, hd, hde⟩ := hEXP s hs2
          exact ⟨d, List.mem_append_left _ hd, hde⟩
        · exact ⟨pr.1, List.mem_append_right _ (by simp), hs2⟩
      by_cases hcase : acc.length + 1 ≤ i
      · exact scheduleAux_before fuel pr.2 (odedup (avail ++ pr.1.exports))
          (acc ++ [pr.1]) out h hEXP2 i B hiB (by simpa using hcase) sym hsym
      · have hieq : i = acc.length := by omega
        subst hieq
        obtain ⟨t, ht⟩ := scheduleAux_prefix fuel pr.2
          (odedup (avail ++ pr.1.exports)) (acc ++ [pr.1]) out h
        have hBd : B = pr.1 := by
          rw [ht, List.append_assoc, List.getElem?_append_right (le_refl acc.length)]
            at hiB
          simp at hiB
          exact hiB.symm
        subst hBd
        have hsat := pickNext_satisfied hpk
        unfold satisfied at hsat
        have hmem : sym ∈ avail := by
          have hc := List.all_eq_true.mp hsat sym hsym
          simpa using hc
        obtain ⟨dA, hdAacc, hdAex⟩ := hEXP sym hmem
        obtain ⟨n, hn, hacc⟩ := List.getElem_of_mem hdAacc
        refine ⟨n, hn, dA, ?_, hdAex⟩
        rw [ht, List.append_assoc, List.getElem?_append_left hn]
        rw [List.getElem?_eq_getElem hn]
        exact congrArg some hacc

/-- Corollary at the `schedule` entry point. -/
theorem schedule_before {ds out : List Directive} (h : schedule ds = .ok out) :
    ∀ (i : Nat) (B : Directive), out[i]? = some B →
      ∀ sym ∈ B.imports, ∃ j, j < i ∧ ∃ dA, out[j]? = some dA ∧ sym ∈ dA.exports :=
  fun i B hiB sym hsym =>
    scheduleAux_before ds.length ds [] [] out h (by simp) i B hiB (by simp) sym hsym

theorem foldl_prepend {V : Type} (kvs : List (String × V)) :
    ∀ (g : Table V), kvs.foldl (fun t p => p :: t) g = kvs.reverse ++ g := by
  induction kvs with
  | nil => intro g; rfl
  | cons p rest ih =>
    intro g
    simp only [List.foldl_cons, List.reverse_cons, List.append_assoc]
    rw [ih (p :: g)]
    rfl

theorem evalExports_keys {V : Type}
    {interp : Nat → (String → Option V) → String → Option V} {b : Nat}
    {env : String → Option V} :
    ∀ {es : List String} {kvs : List (String × V)},
      evalExports interp b env es = .ok kvs → kvs.map Prod.fst = es := by
  intro es
  induction es with
  | nil =>
    intro kvs h
    simp only [evalExports, Except.ok.injEq] at h
    rw [← h]
    rfl
  | cons e rest ih =>
    intro kvs h
    simp only [evalExports] at h
    cases hi : interp b env e with
    | none => rw [hi] at h; cases h
    | some v =>
      rw [hi] at h
      cases hr : evalExports interp b env rest with
      | error x => rw [hr] at h; cases h
      | ok kvs2 =>
        rw [hr] at h
        injection h with h2
        rw [← h2]
        simp only [List.map_cons]
        rw [ih hr]

theorem evalExports_val {V : Type}
    {interp : Nat → (String → Option V) → String → Option V} {b : Nat}
    {env : String → Option V} :
    ∀ {es : List String} {kvs : List (String × V)},
      evalExports interp b env es = .ok kvs →
      ∀ p ∈ kvs, interp b env p.1 = some p.2 := by
  intro es
  induction es with
  | nil =>
    intro kvs h p hp
    simp only [evalExports, Except.ok.injEq] at h
    rw [← h] at hp
    cases hp
  | cons e rest ih =>
    intro kvs h p hp
    simp only [evalExports] at h
    cases hi : interp b env e with
    | none => rw [hi] at h; cases h
    | some v =>
      rw [hi] at h
      cases hr : evalExports interp b env rest with
      | error x => rw [hr] at h; cases h
      | ok kvs2 =>
        rw [hr] at h
        injection h with h2
        rw [← h2] at hp
        rcases List.mem_cons.mp hp with rfl | hp2
        · exact hi
        · exact ih hr p hp2

theorem lookupT_append {V : Type} (xs g : Table V) (s : String) :
    lookupT (xs ++ g) s =
      (match lookupT xs s with
       | some v => some v
       | none => lookupT g s) := by
  induction xs with
  | nil => rfl
  | cons p rest ih =>
    simp only [List.cons_append, lookupT]
    by_cases hk : p.1 = s
    · rw [if_pos hk, if_pos hk]
    · rw [if_neg hk, if_neg hk]
      exact ih

theorem lookupT_not_mem {V : Type} {xs : Table V} {s : String}
    (h : s ∉ xs.map Prod.fst) : lookupT xs s = none := by
  induction xs with
  | nil => rfl
  | cons p rest ih =>
    simp only [List.map_cons, List.mem_cons] at h
    push_neg at h
    simp only [lookupT]
    rw [if_neg (fun hk => h.1 hk.symm)]
    exact ih h.2

theorem lookupT_isSome_of_mem {V : Type} {xs : Table V} {s : String}
    (h : s ∈ xs.map Prod.fst) : (lookupT xs s).isSome = true := by
  induction xs with
  | nil => cases h
  | cons p rest ih =>
    simp only [List.map_cons, List.mem_cons] at h
    simp only [lookupT]
    by_cases hk : p.1 = s
    · rw [if_pos hk]; rfl
    · rw [if_neg hk]
      rcases h with h1 | h1
      · exact absurd h1.symm hk
      · exact ih h1

theorem lookupT_mem {V : Type} {xs : Table V} {s : String} {v : V}
    (h : lookupT xs s = some v) : (s, v) ∈ xs := by
  induction xs with
  | nil => cases h
  | cons p rest ih =>
    simp only [lookupT] at h
    by_cases hk : p.1 = s
    · rw [if_pos hk] at h
      injection h with h2
      rw [← hk, ← h2]
      exact List.mem_cons_self p rest
    · rw [if_neg hk] at h
      exact List.mem_cons_of_mem p (ih h)

theorem execAll_append_ok {V : Type}
    {interp : Nat → (String → Option V) → String → Option V} :
    ∀ {xs ys : List Directive} {g : Table V} {ev : List Event} {t : Table V},
      execAll interp (xs ++ ys) g = (ev, .ok t) →
      ∃ ev1 g1 ev2, execAll interp xs g = (ev1, .ok g1) ∧
        execAll interp ys g1 = (ev2, .ok t) ∧ ev = ev1 ++ ev2 := by
  intro xs
  induction xs with
  | nil =>
    intro ys g ev t h
    exact ⟨[], g, ev, rfl, h, rfl⟩
  | cons d rest ih =>
    intro ys g ev t h
    rw [List.cons_append] at h
    cases hev : evalExports interp d.bodyId (envOf g d.imports) d.exports with
    | error s =>
      simp only [execAll, hev, List.append_eq] at h
      obtain ⟨h1, h2⟩ := Prod.mk.injEq _ _ _ _ |>.mp h
      cases h2
    | ok kvs =>
      simp only [execAll, hev, List.append_eq] at h
      obtain ⟨h1, h2⟩ := Prod.mk.injEq _ _ _ _ |>.mp h
      have hr : execAll interp (rest ++ ys) (kvs.foldl (fun t p => p :: t) g) =
          ((execAll interp (rest ++ ys) (kvs.foldl (fun t p => p :: t) g)).1,
            Except.ok t) := by
        rw [← h2]
      obtain ⟨ev1, gmid, ev2, hx, hy, hevv⟩ := ih hr
      refine ⟨(Event.executed d.src d.headerLine ::
        (match d.includePath with
         | some p => [Event.wrote p]
         | none => [])) ++ ev1, gmid, ev2, ?_, hy, ?_⟩
      · have hx2 : execAll interp rest (kvs.reverse ++ g) = (ev1, Except.ok gmid) := by
          rw [← foldl_prepend]
          exact hx
        simp [execAll, hev, List.append_eq, hx2]
      · rw [← h1, hevv]
        simp

theorem execAll_stable {V : Type}
    {interp : Nat → (String → Option V) → String → Option V} {s : String} :
    ∀ {out : List Directive} {g : Table V} {ev : List Event} {t : Table V},
      execAll interp out g = (ev, .ok t) →
      (∀ d ∈ out, s ∉ d.exports) → lookupT t s = lookupT g s := by
  intro out
  induction out with
  | nil =>
    intro g ev t h _
    obtain ⟨h1, h2⟩ := Prod.mk.injEq _ _ _ _ |>.mp h
    injection h2 with h3
    rw [h3]
  | cons d rest ih =>
    intro g ev t h hno
    cases hev : evalExports interp d.bodyId (envOf g d.imports) d.exports with
    | error s2 =>
      simp only [execAll, hev, List.append_eq] at h
      obtain ⟨h1, h2⟩ := Prod.mk.injEq _ _ _ _ |>.mp h
      cases h2
    | ok kvs =>
      simp only [execAll, hev, List.append_eq] at h
      obtain ⟨h1, h2⟩ := Prod.mk.injEq _ _ _ _ |>.mp h
      have hr : execAll interp rest (kvs.foldl (fun t p => p :: t) g) =
          ((execAll interp rest (kvs.foldl (fun t p => p :: t) g)).1,
            Except.ok t) := by
        rw [← h2]
      have hstep := ih hr (fun d2 hd2 => hno d2 (List.mem_cons_of_mem d hd2))
      rw [hstep, foldl_prepend]
      rw [lookupT_append]
      have hkeys : s ∉ kvs.reverse.map Prod.fst := by
        intro hmem
        have hm2 : s ∈ kvs.map Prod.fst := by
          rw [List.map_reverse] at hmem
          exact List.mem_reverse.mp hmem
        rw [evalExports_keys hev] at hm2
        exact hno d (List.mem_cons_self d rest) hm2
      rw [lookupT_not_mem hkeys]

theorem execAll_bound {V : Type}
    {interp : Nat → (String → Option V) → String → Option V} {s : String} :
    ∀ {out : List Directive} {g : Table V} {ev : List Event} {t : Table V},
      execAll interp out g = (ev, .ok t) →
      (lookupT t s).isSome = true →
      (lookupT g s).isSome = true ∨ ∃ d ∈ out, s ∈ d.exports := by
  intro out
  induction out with
  | nil =>
    intro g ev t h hs
    obtain ⟨h1, h2⟩ := Prod.mk.injEq _ _ _ _ |>.mp h
    injection h2 with h3
    rw [← h3] at hs
    exact Or.inl hs
  | cons d rest ih =>
    intro g ev t h hs
    cases hev : evalExports interp d.bodyId (envOf g d.imports) d.exports with
    | error s2 =>
      simp only [execAll, hev, List.append_eq] at h
      obtain ⟨h1, h2⟩ := Prod.mk.injEq _ _ _ _ |>.mp h
      cases h2
    | ok kvs =>
      simp only [execAll, hev, List.append_eq] at h
      obtain ⟨h1, h2⟩ := Prod.mk.injEq _ _ _ _ |>.mp h
      have hr : execAll interp rest (kvs.foldl (fun t p => p :: t) g) =
          ((execAll interp rest (kvs.foldl (fun t p => p :: t) g)).1,
            Except.ok t) := by
        rw [← h2]
      rcases ih hr hs with hg1 | ⟨d2, hd2, he2⟩
      · rw [foldl_prepend, lookupT_append] at hg1
        cases hlk : lookupT kvs.reverse s with
        | some v =>
          right
          refine ⟨d, List.mem_cons_self d rest, ?_⟩
          have hmem := lookupT_mem hlk
          have hm2 : s ∈ kvs.map Prod.fst := by
            rw [← List.mem_reverse, ← List.map_reverse]
            exact List.mem_map_of_mem Prod.fst hmem
          rw [evalExports_keys hev] at hm2
          exact hm2
        | none =>
          rw [hlk] at hg1
          exact Or.inl hg1
      · exact Or.inr ⟨d2, List.mem_cons_of_mem d hd2, he2⟩

theorem execAll_head_value {V : Type}
    {interp : Nat → (String → Option V) → String → Option V} {d : Directive}
    {rest : List Directive} {g : Table V} {ev : List Event} {t : Table V}
    (h : execAll interp (d :: rest) g = (ev, .ok t))
    {e : String} (he : e ∈ d.exports) (hrest : ∀ d2 ∈ rest, e ∉ d2.exports) :
    lookupT t e = interp d.bodyId (envOf g d.imports) e := by
  cases hev : evalExports interp d.bodyId (envOf g d.imports) d.exports with
  | error s2 =>
    simp only [execAll, hev, List.append_eq] at h
    obtain ⟨h1, h2⟩ := Prod.mk.injEq _ _ _ _ |>.mp h
    cases h2
  | ok kvs =>
    simp only [execAll, hev, List.append_eq] at h
    obtain ⟨h1, h2⟩ := Prod.mk.injEq _ _ _ _ |>.mp h
    have hr : execAll interp rest (kvs.foldl (fun t p => p :: t) g) =
        ((execAll interp rest (kvs.foldl (fun t p => p :: t) g)).1,
          Except.ok t) := by
      rw [← h2]
    have hstep := execAll_stable hr hrest
    rw [hstep, foldl_prepend, lookupT_append]
    have hmemkeys : e ∈ kvs.reverse.map Prod.fst := by
      rw [List.map_reverse, List.mem_reverse, evalExports_keys hev]
      exact he
    obtain ⟨v, hv⟩ := Option.isSome_iff_exists.mp (lookupT_isSome_of_mem hmemkeys)
    rw [hv]
    have hpm := lookupT_mem hv
    have hval := evalExports_val hev (e, v) (List.mem_reverse.mp hpm)
    exact hval.symm

theorem filter_flatMap_f1 (alle : List String) :
    ∀ (l : List Directive),
      ((l.map (fun d =>
        if d.exports.isEmpty && d.imports.isEmpty && !d.globalExporter then
          { d with imports := alle } else d)).filter
          (fun d => d.globalExporter)).flatMap (fun d => d.exports) =
      (l.filter (fun d => d.globalExporter)).flatMap (fun d => d.exports)
  | [] => rfl
  | d :: r => by
    simp only [List.map_cons, List.filter_cons]
    have hgl : (if d.exports.isEmpty && d.imports.isEmpty && !d.globalExporter then
        { d with imports := alle } else d).globalExporter = d.globalExporter := by
      split <;> rfl
    have hex : (if d.exports.isEmpty && d.imports.isEmpty && !d.globalExporter then
        { d with imports := alle } else d).exports = d.exports := by
      split <;> rfl
    rw [hgl]
    by_cases hg : d.globalExporter = true
    · rw [if_pos hg, if_pos hg, List.flatMap_cons, List.flatMap_cons, hex,
        filter_flatMap_f1 alle r]
    · rw [if_neg hg, if_neg hg]
      exact filter_flatMap_f1 alle r

theorem implicitPhase_eq (ds : List Directive) :
    implicitPhase ds = ds.map (ipF (allExports ds) (giOf ds)) := by
  simp only [implicitPhase]
  rw [filter_flatMap_f1 (allExports ds) ds]
  rw [List.map_map]
  refine List.map_congr_left ?_
  intro d _
  simp only [Function.comp_apply]
  unfold ipF giOf
  cases hg : d.globalExporter with
  | true => simp [hg]
  | false =>
    by_cases hb : d.exports.isEmpty && d.imports.isEmpty
    · simp [hg, hb]
    · simp [hg, hb]

theorem ipF_exports (alle gi : List String) (d : Directive) :
    (ipF alle gi d).exports = d.exports := by
  unfold ipF
  split
  · rfl
  · split <;> rfl

theorem ipF_bodyId (alle gi : List String) (d : Directive) :
    (ipF alle gi d).bodyId = d.bodyId := by
  unfold ipF
  split
  · rfl
  · split <;> rfl

theorem ipF_imports_mem {a1 g1 a2 g2 : List String} (d : Directive)
    (ha : ∀ s, s ∈ a1 ↔ s ∈ a2) (hg : ∀ s, s ∈ g1 ↔ s ∈ g2) :
    ∀ s, s ∈ (ipF a1 g1 d).imports ↔ s ∈ (ipF a2 g2 d).imports := by
  intro s
  unfold ipF
  split
  · exact Iff.rfl
  · split
    · show s ∈ odedup (a1 ++ g1) ↔ s ∈ odedup (a2 ++ g2)
      rw [mem_odedup, mem_odedup, List.mem_append, List.mem_append]
      exact or_congr (ha s) (hg s)
    · show s ∈ odedup (d.imports ++ g1) ↔ s ∈ odedup (d.imports ++ g2)
      rw [mem_odedup, mem_odedup, List.mem_append, List.mem_append]
      exact or_congr Iff.rfl (hg s)

theorem allExports_perm_mem {ds1 ds2 : List Directive} (h : ds1.Perm ds2) :
    ∀ s, s ∈ allExports ds1 ↔ s ∈ allExports ds2 := by
  intro s
  unfold allExports
  rw [mem_odedup, mem_odedup]
  exact (List.Perm.flatMap_right _ h).mem_iff

theorem giOf_perm_mem {ds1 ds2 : List Directive} (h : ds1.Perm ds2) :
    ∀ s, s ∈ giOf ds1 ↔ s ∈ giOf ds2 := by
  intro s
  unfold giOf
  rw [mem_odedup, mem_odedup]
  exact (List.Perm.flatMap_right _ (h.filter _)).mem_iff

theorem count_pairs (dd : Directive) (es : List String) (sym : String) :
    ((es.map (fun e => (e, dd))).filter (fun p => p.1 = sym)).length =
      (es.filter (fun e => e = sym)).length := by
  induction es with
  | nil => rfl
  | cons e r ih =>
    simp only [List.map_cons, List.filter_cons]
    by_cases he : e = sym <;> simp [he, ih]

theorem expCount_cons (d : Directive) (ds : List Directive) (sym : String) :
    expCount (d :: ds) sym =
      (d.exports.filter (fun e => e = sym)).length + expCount ds sym := by
  unfold expCount exportPairs
  rw [List.flatMap_cons, List.filter_append, List.length_append, count_pairs]

theorem expCount_append (xs ys : List Directive) (sym : String) :
    expCount (xs ++ ys) sym = expCount xs sym + expCount ys sym := by
  unfold expCount exportPairs
  rw [List.flatMap_append, List.filter_append, List.length_append]

theorem expCount_pos {d : Directive} {sym : String} (h : sym ∈ d.exports)
    (ds : List Directive) (hmem : d ∈ ds) : 1 ≤ expCount ds sym := by
  obtain ⟨u, v, rfl⟩ := List.append_of_mem hmem
  rw [expCount_append, expCount_cons]
  have hpos : 0 < (d.exports.filter (fun e => e = sym)).length := by
    apply List.length_pos.mpr
    apply List.ne_nil_of_mem (a := sym)
    exact List.mem_filter.mpr ⟨h, by simp⟩
  omega

theorem expCount_zero_not_mem {ds : List Directive} {sym : String}
    (h : expCount ds sym = 0) : ∀ d ∈ ds, sym ∉ d.exports := by
  intro d hd he
  have := expCount_pos he ds hd
  omega

theorem expCount_eq_sum (ds : List Directive) (sym : String) :
    expCount ds sym =
      (ds.map (fun d => (d.exports.filter (fun e => e = sym)).length)).sum := by
  induction ds with
  | nil => rfl
  | cons d r ih => rw [expCount_cons, List.map_cons, List.sum_cons, ih]

theorem expCount_perm {ds1 ds2 : List Directive} (h : ds1.Perm ds2) (sym : String) :
    expCount ds1 sym = expCount ds2 sym := by
  rw [expCount_eq_sum, expCount_eq_sum]
  exact (h.map _).sum_eq

theorem expCount_map_ipF (alle gi : List String) (ds : List Directive) (sym : String) :
    expCount (ds.map (ipF alle gi)) sym = expCount ds sym := by
  rw [expCount_eq_sum, expCount_eq_sum, List.map_map]
  congr 1
  refine List.map_congr_left ?_
  intro d _
  simp only [Function.comp_apply, ipF_exports]

theorem checkDupExports_none {ds : List Directive} (h : checkDupExports ds = none) :
    ∀ sym, expCount ds sym ≤ 1 := by
  intro sym
  unfold checkDupExports at h
  cases hf : (coalesce (exportPairs ds)).find? (fun kv => kv.2.length ≥ 2) with
  | some kv => rw [hf] at h; cases h
  | none =>
    have hall := List.find?_eq_none.mp hf
    by_cases hmem : sym ∈ (exportPairs ds).map Prod.fst
    · have hgrp : (sym, ((exportPairs ds).filter
          (fun p => p.1 = sym)).map Prod.snd) ∈ coalesce (exportPairs ds) := by
        unfold coalesce
        exact List.mem_map_of_mem _ (mem_odedup.mpr hmem)
      have h2 := hall _ hgrp
      simp only [ge_iff_le, List.length_map, decide_eq_true_eq, not_le] at h2
      unfold expCount
      omega
    · have hnil : (exportPairs ds).filter (fun p => p.1 = sym) = [] := by
        rw [List.filter_eq_nil_iff]
        intro p hp hps
        exact hmem (by
          simp only [decide_eq_true_eq] at hps
          rw [← hps]
          exact List.mem_map_of_mem Prod.fst hp)
      unfold expCount
      rw [hnil]
      simp

theorem execAll_mono {V : Type}
    {interp : Nat → (String → Option V) → String → Option V} {s : String} :
    ∀ {out : List Directive} {g : Table V} {ev : List Event} {t : Table V},
      execAll interp out g = (ev, .ok t) →
      (lookupT g s).isSome = true → (lookupT t s).isSome = true := by
  intro out
  induction out with
  | nil =>
    intro g ev t h hg
    obtain ⟨h1, h2⟩ := Prod.mk.injEq _ _ _ _ |>.mp h
    injection h2 with h3
    rw [← h3]
    exact hg
  | cons d rest ih =>
    intro g ev t h hg
    cases hev : evalExports interp d.bodyId (envOf g d.imports) d.exports with
    | error s2 =>
      simp only [execAll, hev, List.append_eq] at h
      obtain ⟨h1, h2⟩ := Prod.mk.injEq _ _ _ _ |>.mp h
      cases h2
    | ok kvs =>
      simp only [execAll, hev, List.append_eq] at h
      obtain ⟨h1, h2⟩ := Prod.mk.injEq _ _ _ _ |>.mp h
      have hr : execAll interp rest (kvs.foldl (fun t p => p :: t) g) =
          ((execAll interp rest (kvs.foldl (fun t p => p :: t) g)).1,
            Except.ok t) := by
        rw [← h2]
      apply ih hr
      rw [foldl_prepend, lookupT_append]
      cases hlk : lookupT kvs.reverse s with
      | some v => rfl
      | none => exact hg

theorem execAll_export_bound {V : Type}
    {interp : Nat → (String → Option V) → String → Option V} :
    ∀ {out : List Directive} {g : Table V} {ev : List Event} {t : Table V},
      execAll interp out g = (ev, .ok t) →
      ∀ d ∈ out, ∀ e ∈ d.exports, (lookupT t e).isSome = true := by
  intro out
  induction out with
  | nil => intro g ev t h d hd; cases hd
  | cons d0 rest ih =>
    intro g ev t h d hd e he
    cases hev : evalExports interp d0.bodyId (envOf g d0.imports) d0.exports with
    | error s2 =>
      simp only [execAll, hev, List.append_eq] at h
      obtain ⟨h1, h2⟩ := Prod.mk.injEq _ _ _ _ |>.mp h
      cases h2
    | ok kvs =>
      simp only [execAll, hev, List.append_eq] at h
      obtain ⟨h1, h2⟩ := Prod.mk.injEq _ _ _ _ |>.mp h
      have hr : execAll interp rest (kvs.foldl (fun t p => p :: t) g) =
          ((execAll interp rest (kvs.foldl (fun t p => p :: t) g)).1,
            Except.ok t) := by
        rw [← h2]
      rcases List.mem_cons.mp hd with rfl | hd2
      · apply execAll_mono hr
        rw [foldl_prepend]
        apply lookupT_isSome_of_mem
        rw [List.map_append]
        apply List.mem_append_left
        rw [List.map_reverse, List.mem_reverse, evalExports_keys hev]
        exact he
      · exact ih hr d hd2 e he

theorem run_value {V : Type}
    {interp : Nat → (String → Option V) → String → Option V}
    {out : List Directive} {ev : List Event} {t : Table V}
    (hex : execAll interp out [] = (ev, .ok t))
    (hU : ∀ sym, expCount out sym ≤ 1)
    (hORD : ∀ (i : Nat) (B : Directive), out[i]? = some B →
      ∀ sym ∈ B.imports, ∃ j, j < i ∧ ∃ dA, out[j]? = some dA ∧ sym ∈ dA.exports) :
    ∀ (i : Nat) (d : Directive), out[i]? = some d → ∀ e ∈ d.exports,
      lookupT t e = interp d.bodyId
        (fun s => if d.imports.contains s then lookupT t s else none) e := by
  intro i d hid e he
  obtain ⟨hlt, hget⟩ := List.getElem?_eq_some.mp hid
  have hdec : out = out.take i ++ d :: out.drop (i + 1) := by
    conv_lhs => rw [← List.take_append_drop i out]
    congr 1
    rw [List.drop_eq_getElem_cons hlt, hget]
  have hcnt : expCount (out.take i ++ d :: out.drop (i + 1)) e ≤ 1 := by
    rw [← hdec]
    exact hU e
  rw [expCount_append, expCount_cons] at hcnt
  have hdpos : 0 < (d.exports.filter (fun x => x = e)).length := by
    apply List.length_pos.mpr
    apply List.ne_nil_of_mem (a := e)
    exact List.mem_filter.mpr ⟨he, by simp⟩
  have hsuf0 : expCount (out.drop (i + 1)) e = 0 := by omega
  have hsufno := expCount_zero_not_mem hsuf0
  have hex2 : execAll interp (out.take i ++ d :: out.drop (i + 1)) [] =
      (ev, .ok t) := by
    rw [← hdec]
    exact hex
  obtain ⟨ev1, gpre, ev2, hpre, hrest, _⟩ := execAll_append_ok hex2
  have hval := execAll_head_value hrest he hsufno
  rw [hval]
  have henv : envOf gpre d.imports =
      (fun s => if d.imports.contains s then lookupT t s else none) := by
    funext s
    show (if d.imports.contains s then lookupT gpre s else none) = _
    by_cases hc : d.imports.contains s = true
    · rw [if_pos hc, if_pos hc]
      have hsmem : s ∈ d.imports := by simpa using hc
      obtain ⟨j, hj, dA, hjA, hAex⟩ := hORD i d hid s hsmem
      have hjtake : (out.take i)[j]? = some dA := by
        rw [List.getElem?_take, if_pos hj]
        exact hjA
      have hdApre : dA ∈ out.take i := List.getElem?_mem hjtake
      have hs1 : 1 ≤ expCount (out.take i) s := expCount_pos hAex _ hdApre
      have hsU : expCount (out.take i ++ d :: out.drop (i + 1)) s ≤ 1 := by
        rw [← hdec]
        exact hU s
      rw [expCount_append, expCount_cons] at hsU
      have hnod : ∀ d2 ∈ d :: out.drop (i + 1), s ∉ d2.exports := by
        have hz : expCount (d :: out.drop (i + 1)) s = 0 := by
          rw [expCount_cons]
          omega
        exact expCount_zero_not_mem hz
      exact (execAll_stable hrest hnod).symm
    · rw [if_neg hc, if_neg hc]
  rw [henv]

theorem metaRun_ok_inv {V : Type}
    {interp : Nat → (String → Option V) → String → Option V}
    {ds : List Directive} {ev : List Event} {t : Table V}
    (h : metaRun interp ds = (ev, .ok t)) :
    checkDupExports ds = none ∧
    ∃ out evc evx, schedule (implicitPhase ds) = .ok out ∧
      compileAll out = (evc, none) ∧ execAll interp out [] = (evx, .ok t) := by
  unfold metaRun at h
  cases h1 : checkDupPaths ds with
  | some e =>
    simp only [h1] at h
    obtain ⟨_, hx⟩ := Prod.mk.injEq _ _ _ _ |>.mp h
    cases hx
  | none =>
  simp only [h1] at h
  cases h2 : checkDupExports ds with
  | some e =>
    simp only [h2] at h
    obtain ⟨_, hx⟩ := Prod.mk.injEq _ _ _ _ |>.mp h
    cases hx
  | none =>
  simp only [h2] at h
  cases h3 : checkImports ds with
  | some e =>
    simp only [h3] at h
    obtain ⟨_, hx⟩ := Prod.mk.injEq _ _ _ _ |>.mp h
    cases hx
  | none =>
  simp only [h3] at h
  cases h4 : schedule (implicitPhase ds) with
  | error e =>
    simp only [h4] at h
    obtain ⟨_, hx⟩ := Prod.mk.injEq _ _ _ _ |>.mp h
    cases hx
  | ok out =>
  simp only [h4] at h
  cases h5 : compileAll out with
  | mk evc oerr =>
  simp only [h5] at h
  cases oerr with
  | some e =>
    obtain ⟨_, hx⟩ := Prod.mk.injEq _ _ _ _ |>.mp h
    cases hx
  | none =>
    obtain ⟨hev, hx⟩ := Prod.mk.injEq _ _ _ _ |>.mp h
    have hx2 : execAll interp out [] =
        ((execAll interp out []).1, Except.ok t) := by
      rw [← hx]
    exact ⟨rfl, out, evc, (execAll interp out []).1, rfl, h5, hx2⟩

theorem metaRun_perm_table {V : Type}
    (interp : Nat → (String → Option V) → String → Option V)
    {ds1 ds2 : List Directive} {ev1 ev2 : List Event} {t1 t2 : Table V}
    (hperm : ds1.Perm ds2)
    (h1 : metaRun interp ds1 = (ev1, .ok t1))
    (h2 : metaRun interp ds2 = (ev2, .ok t2)) :
    ∀ s, lookupT t1 s = lookupT t2 s := by
  obtain ⟨hdup1, out1, evc1, evx1, hsch1, hcomp1, hex1⟩ := metaRun_ok_inv h1
  obtain ⟨hdup2, out2, evc2, evx2, hsch2, hcomp2, hex2⟩ := metaRun_ok_inv h2
  have hop1 : out1.Perm (implicitPhase ds1) := schedule_perm hsch1
  have hop2 : out2.Perm (implicitPhase ds2) := schedule_perm hsch2
  have hU1 : ∀ sym, expCount out1 sym ≤ 1 := by
    intro sym
    rw [expCount_perm hop1 sym, implicitPhase_eq, expCount_map_ipF]
    exact checkDupExports_none hdup1 sym
  have hU2 : ∀ sym, expCount out2 sym ≤ 1 := by
    intro sym
    rw [expCount_perm hop2 sym, implicitPhase_eq, expCount_map_ipF]
    exact checkDupExports_none hdup2 sym
  have hORD1 := schedule_before hsch1
  have hORD2 := schedule_before hsch2
  have hVAL1 := run_value hex1 hU1 hORD1
  have hVAL2 := run_value hex2 hU2 hORD2
  have hcorr : ∀ d1 ∈ out1, ∃ d2 ∈ out2, d2.exports = d1.exports ∧
      d2.bodyId = d1.bodyId ∧ ∀ s, s ∈ d2.imports ↔ s ∈ d1.imports := by
    intro d1 hd1
    have hd1b : d1 ∈ implicitPhase ds1 := hop1.mem_iff.mp hd1
    rw [implicitPhase_eq] at hd1b
    obtain ⟨d0, hd0, rfl⟩ := List.mem_map.mp hd1b
    refine ⟨ipF (allExports ds2) (giOf ds2) d0, ?_, ?_, ?_, ?_⟩
    · apply hop2.mem_iff.mpr
      rw [implicitPhase_eq]
      exact List.mem_map_of_mem _ (hperm.mem_iff.mp hd0)
    · rw [ipF_exports, ipF_exports]
    · rw [ipF_bodyId, ipF_bodyId]
    · exact ipF_imports_mem d0 (allExports_perm_mem hperm.symm) (giOf_perm_mem hperm.symm)
  have hcorr21 : ∀ d2 ∈ out2, ∃ d1 ∈ out1, d1.exports = d2.exports := by
    intro d2 hd2
    have hd2b : d2 ∈ implicitPhase ds2 := hop2.mem_iff.mp hd2
    rw [implicitPhase_eq] at hd2b
    obtain ⟨d0, hd0, rfl⟩ := List.mem_map.mp hd2b
    refine ⟨ipF (allExports ds1) (giOf ds1) d0, ?_, ?_⟩
    · apply hop1.mem_iff.mpr
      rw [implicitPhase_eq]
      exact List.mem_map_of_mem _ (hperm.mem_iff.mpr hd0)
    · rw [ipF_exports, ipF_exports]
  have main : ∀ i : Nat, ∀ d1, out1[i]? = some d1 → ∀ e ∈ d1.exports,
      lookupT t1 e = lookupT t2 e := by
    intro i
    induction i using Nat.strong_induction_on with
    | _ i IH =>
      intro d1 hd1 e he
      have hv1 := hVAL1 i d1 hd1 e he
      obtain ⟨d2, hd2mem, hexp2, hbody2, himp2⟩ := hcorr d1 (List.getElem?_mem hd1)
      obtain ⟨i2, hi2⟩ : ∃ i2 : Nat, out2[i2]? = some d2 := by
        obtain ⟨k, hk, hg⟩ := List.getElem_of_mem hd2mem
        exact ⟨k, by rw [List.getElem?_eq_getElem hk, hg]⟩
      have hv2 := hVAL2 i2 d2 hi2 e (by rw [hexp2]; exact he)
      rw [hv1, hv2, hbody2]
      have henv : (fun s => if d1.imports.contains s then lookupT t1 s else none) =
          (fun s => if d2.imports.contains s then lookupT t2 s else none) := by
        funext s
        by_cases hc1 : d1.imports.contains s = true
        · have hc2 : d2.imports.contains s = true := by
            have hm := (himp2 s).mpr (by simpa using hc1)
            simpa using hm
          rw [if_pos hc1, if_pos hc2]
          have hsmem : s ∈ d1.imports := by simpa using hc1
          obtain ⟨j, hj, dA, hjA, hAex⟩ := hORD1 i d1 hd1 s hsmem
          exact IH j hj dA hjA s hAex
        · have hc2 : ¬(d2.imports.contains s = true) := by
            intro hx
            exact hc1 (by
              have hm := (himp2 s).mp (by simpa using hx)
              simpa using hm)
          rw [if_neg hc1, if_neg hc2]
      rw [henv]
  intro s
  cases hb1 : lookupT t1 s with
  | some v =>
    have hbs : (lookupT t1 s).isSome = true := by rw [hb1]; rfl
    rcases execAll_bound hex1 hbs with hg | ⟨d1, hd1, he1⟩
    · simp [lookupT] at hg
    · obtain ⟨i, hi⟩ : ∃ i : Nat, out1[i]? = some d1 := by
        obtain ⟨k, hk, hgk⟩ := List.getElem_of_mem hd1
        exact ⟨k, by rw [List.getElem?_eq_getElem hk, hgk]⟩
      rw [← hb1]
      exact main i d1 hi s he1
  | none =>
    cases hb2 : lookupT t2 s with
    | none => rfl
    | some v =>
      exfalso
      have hbs2 : (lookupT t2 s).isSome = true := by rw [hb2]; rfl
      rcases execAll_bound hex2 hbs2 with hg | ⟨d2, hd2, he2⟩
      · simp [lookupT] at hg
      · obtain ⟨d1, hd1, hexp1⟩ := hcorr21 d2 hd2
        have hbnd : (lookupT t1 s).isSome = true :=
          execAll_export_bound hex1 d1 hd1 s (by rw [hexp1]; exact he2)
        rw [hb1] at hbnd
        cases hbnd

/-- C1: (a) whenever directive `B` imports a symbol that only directive
`A` exports, every successful schedule — whatever the order of the input
directive list — places `A` strictly before `B`; (b) for any two
permutations of the directive list, two successful pipeline runs produce
final symbol tables that agree on every symbol. -/
theorem C1_schedule_permutation {V : Type}
    (interp : Nat → (String → Option V) → String → Option V) :
    (∀ (ds out : List Directive) (A B : Directive) (sym : String),
      schedule ds = .ok out →
      sym ∈ B.imports → sym ∈ A.exports →
      (∀ d ∈ ds, sym ∈ d.exports → d = A) →
      ∀ i : Nat, out[i]? = some B → ∃ j : Nat, j < i ∧ out[j]? = some A) ∧
    (∀ (ds1 ds2 : List Directive) (ev1 ev2 : List Event) (t1 t2 : Table V),
      ds1.Perm ds2 →
      metaRun interp ds1 = (ev1, .ok t1) →
      metaRun interp ds2 = (ev2, .ok t2) →
      ∀ s, lookupT t1 s = lookupT t2 s) := by
  constructor
  · intro ds out A B sym hsch hBim hAex honly i hiB
    obtain ⟨j, hj, dA, hjA, hAex2⟩ := schedule_before hsch i B hiB sym hBim
    have hdA : dA ∈ ds := (schedule_perm hsch).mem_iff.mp (List.getElem?_mem hjA)
    have hdAeq : dA = A := honly dA hdA hAex2
    exact ⟨j, hj, by rw [← hdAeq]; exact hjA⟩
  · intro ds1 ds2 ev1 ev2 t1 t2 hperm h1 h2
    exact metaRun_perm_table interp hperm h1 h2

/-- C1 witness: with exporter `c1A` and importer `c1B` fed in the order
`[B, A]`, the schedule still runs `A` first, and the two input orders
yield the same final table. -/
theorem C1_schedule_permutation_witness :
    (schedule [c1B, c1A] = .ok [c1A, c1B] ∧
      [c1A, c1B][1]? = some c1B ∧
      (∃ j : Nat, j < 1 ∧ [c1A, c1B][j]? = some c1A)) ∧
    (([c1B, c1A] : List Directive).Perm [c1A, c1B] ∧
      (metaRun trivInterp [c1B, c1A]).2 = .ok [("x", 0)] ∧
      (metaRun trivInterp [c1A, c1B]).2 = .ok [("x", 0)] ∧
      ∀ s, lookupT ([("x", 0)] : Table Nat) s = lookupT ([("x", 0)] : Table Nat) s) := by
  constructor
  · refine ⟨rfl, rfl, ?_⟩
    exact (C1_schedule_permutation trivInterp).1 [c1B, c1A] [c1A, c1B] c1A c1B "x"
      rfl (by decide) (by decide) (by decide) 1 rfl
  · refine ⟨by decide, rfl, rfl, ?_⟩
    exact (C1_schedule_permutation trivInterp).2 [c1B, c1A] [c1A, c1B]
      (metaRun trivInterp [c1B, c1A]).1 (metaRun trivInterp [c1A, c1B]).1
      [("x", 0)] [("x", 0)] (by decide) rfl rfl

end Pxd
